import Mathlib

/-!
# Python-Strings-for-CPP: the buffer engine of `String`

A shallow embedding of `src/src/string.cpp` and `src/src/string.hpp`.

* A `char` is a Lean `Char`; the code only compares characters with each other
  and with the terminator.
* A `char*` is an `Option (List Char)`: `none` is `nullptr`, `some m` points to
  an object whose cells are `m`.  A read or a write outside `m`, or through
  `nullptr`, is undefined behaviour and yields `Fault.undefined`.
* `new char[n]` yields `n` cells of indeterminate content; that content is the
  parameter `junk` of every operation that allocates.  Allocation does not fail.
* `size_type` is `Nat` reduced modulo `2 ^ 64` at every arithmetic operation of
  the source; `index_type` (`int`) is `Int` reduced to 32 bits at conversions.
  Counters that index an object (`i`, `pos`, `length` in the loops) stay below
  the size of the object and are not reduced.
* A member function maps the buffer to the buffer after the call.  An exception
  ends the call with `Except.error`; every `throw` of the source precedes the
  first assignment to a member in its function, so the buffer is then the one
  the function was applied to.
* A C-string argument never aliases the storage of the buffer it is passed to.
-/

namespace PyString

/-- The terminator `'\0'`. -/
def NUL : Char := Char.ofNat 0

/-- Number of values of `size_type` (`size_t`, 64 bits). -/
def SIZE_MOD : Nat := 2 ^ 64

/-- Number of values of `index_type` (`int`, 32 bits). -/
def INT_MOD : Int := 2 ^ 32

/-- What ends a call abnormally: the two exceptions of the source, and
undefined behaviour (an access outside an object or through `nullptr`). -/
inductive Fault where
  | invalid_argument : Fault
  | out_of_range (pos : Int) : Fault
  | undefined : Fault
  deriving DecidableEq, Repr

deriving instance DecidableEq for Except

/-- Indeterminate content of freshly allocated cells. -/
abbrev Junk := Nat → Char

/-- The expression `new char[n]`. -/
def new_char (junk : Junk) (n : Nat) : List Char := (List.range n).map junk

/-- The read `p[i]`. -/
def load (p : Option (List Char)) (i : Nat) : Except Fault Char :=
  match p with
  | none => .error .undefined
  | some m =>
    match m[i]? with
    | none => .error .undefined
    | some c => .ok c

/-- The write `p[i] = c`. -/
def store (p : Option (List Char)) (i : Nat) (c : Char) : Except Fault (List Char) :=
  match p with
  | none => .error .undefined
  | some m => if i < m.length then .ok (m.set i c) else .error .undefined

/-- Subtraction of `size_type`: the difference modulo `SIZE_MOD`, that is
`(a + SIZE_MOD - b) % SIZE_MOD` for `a` and `b` below `SIZE_MOD`. -/
def size_sub (a b : Nat) : Nat :=
  if b % SIZE_MOD ≤ a % SIZE_MOD then a % SIZE_MOD - b % SIZE_MOD
  else SIZE_MOD - (b % SIZE_MOD - a % SIZE_MOD)

/-- The class `String`: its three private members. -/
structure String where
  _data : Option (List Char)
  _length : Nat
  _capacity : Nat
  deriving DecidableEq, Repr

/-- `String::validate_pointer`: throws `std::invalid_argument` on `nullptr`;
the embedding hands back the object pointed to. -/
def validate_pointer (str : Option (List Char)) : Except Fault (List Char) :=
  match str with
  | some m => .ok m
  | none => .error .invalid_argument

/-- `String::catch_null_exception`: true when `validate_pointer` throws. -/
def catch_null_exception (str : Option (List Char)) : Bool :=
  match validate_pointer str with
  | .ok _ => false
  | .error _ => true

/-- `String::String()`. -/
def String.ctor_default : String := ⟨none, 0, 1⟩

/-- `String::String(size_type n)`. -/
def String.ctor_size (junk : Junk) (n : Nat) : String := ⟨some (new_char junk n), 0, n⟩

/-- `String::size`. -/
def String.size (s : String) : Nat := s._length

/-- `String::length`. -/
def String.length (s : String) : Nat := s._length

/-- `String::capacity`. -/
def String.capacity (s : String) : Nat := s._capacity

/-- `String::empty`. -/
def String.empty (s : String) : Bool := s._length == 0

/-- The loop of `String::len`: `for(length = 0; str[length] != '\0'; ++length);`.
It reads `str[length]` at each turn; `fuel` bounds the number of turns and is
never exhausted when it exceeds the size of the object. -/
def len_loop (str : List Char) : Nat → Nat → Except Fault Nat
  | 0, _ => .error .undefined
  | fuel + 1, length =>
    match str[length]? with
    | none => .error .undefined
    | some c => if c ≠ NUL then len_loop str fuel (length + 1) else .ok length

/-- `String::len`. -/
def len (str : Option (List Char)) : Except Fault Nat :=
  match validate_pointer str with
  | .error e => .error e
  | .ok m => len_loop m (m.length + 1) 0

/-- The loop of the static `String::copy`:
`for(; i < len && in_str._data[pos] != '\0'; ++i) out_str[i] = in_str._data[pos++];`
with `remaining = len - i`. -/
def copy_static_loop (src : List Char) :
    Nat → Nat → Nat → List Char → Except Fault (Nat × List Char)
  | 0, i, _, out => .ok (i, out)
  | remaining + 1, i, pos, out =>
    match src[pos]? with
    | none => .error .undefined
    | some c =>
      if c ≠ NUL then
        if i < out.length then copy_static_loop src remaining (i + 1) (pos + 1) (out.set i c)
        else .error .undefined
      else .ok (i, out)

/-- `String::copy(const self_type& in_str, pointer out_str, size_type len, size_type pos)`:
returns the count and the object behind `out_str` after the writes. -/
def copy_static (in_str : String) (out_str : Option (List Char)) (len pos : Nat) :
    Except Fault (Nat × List Char) :=
  match validate_pointer out_str with
  | .error e => .error e
  | .ok out =>
    match validate_pointer in_str._data with
    | .error e => .error e
    | .ok src => copy_static_loop src len 0 pos out

/-- `String::resize`. -/
def String.resize (junk : Junk) (s : String) (n : Nat) : Except Fault String :=
  let capacity := (n + 1) % SIZE_MOD
  match s._data with
  | none => .ok ⟨some (new_char junk capacity), s._length, capacity⟩
  | some d =>
    let temp := new_char junk capacity
    match copy_static ⟨some d, s._length, capacity⟩ (some temp) (size_sub capacity 1) 0 with
    | .error e => .error e
    | .ok (length, temp1) =>
      match store (some temp1) length NUL with
      | .error e => .error e
      | .ok temp2 => .ok ⟨some temp2, length, capacity⟩

/-- `String::reserve`. -/
def String.reserve (junk : Junk) (s : String) (n : Nat) : Except Fault String :=
  if s._capacity > n then .ok s else s.resize junk (size_sub n 1)

/-- The loop of the instance `String::copy`:
`for(; i < len && str[i] != '\0'; ++i) _data[i] = str[i];` with `remaining = len - i`. -/
def copy_loop (str : List Char) :
    Nat → Nat → Option (List Char) → Except Fault (Nat × Option (List Char))
  | 0, i, data => .ok (i, data)
  | remaining + 1, i, data =>
    match str[i]? with
    | none => .error .undefined
    | some c =>
      if c ≠ NUL then
        match store data i c with
        | .error e => .error e
        | .ok d => copy_loop str remaining (i + 1) (some d)
      else .ok (i, data)

/-- `String::copy(const_pointer str, size_type len)`: returns the count and the
buffer after the call. -/
def String.copy (junk : Junk) (s : String) (str : Option (List Char)) (len : Nat) :
    Except Fault (Nat × String) :=
  match validate_pointer str with
  | .error e => .error e
  | .ok m =>
    match (if len > s._capacity then s.resize junk len else .ok s) with
    | .error e => .error e
    | .ok s1 =>
      match copy_loop m len 0 s1._data with
      | .error e => .error e
      | .ok (i, data) => .ok (i, ⟨data, i, s1._capacity⟩)

/-- `String::String(const_pointer str)`. -/
def String.ctor_cstr (junk : Junk) (str : Option (List Char)) : Except Fault String :=
  match len str with
  | .error e => .error e
  | .ok l =>
    let s0 := String.ctor_size junk ((l + 1) % SIZE_MOD)
    match s0.copy junk str s0._capacity with
    | .error e => .error e
    | .ok (_, s1) =>
      match store s1._data s1._length NUL with
      | .error e => .error e
      | .ok d => .ok ⟨some d, s1._length, s1._capacity⟩

/-- The loop of `String::compare_equal(const_pointer)`:
`for (; _data[i] != '\0' && str[i] != '\0' && _data[i] == str[i]; ++i);`.
The conjuncts are evaluated left to right; `fuel` bounds the number of turns and
is never exhausted when it exceeds the size of the storage. -/
def compare_loop (data str : List Char) : Nat → Nat → Except Fault Nat
  | 0, _ => .error .undefined
  | fuel + 1, i =>
    match data[i]? with
    | none => .error .undefined
    | some a =>
      if a ≠ NUL then
        match str[i]? with
        | none => .error .undefined
        | some b =>
          if b ≠ NUL then
            if a = b then compare_loop data str fuel (i + 1) else .ok i
          else .ok i
      else .ok i

/-- `String::compare_equal(const_pointer str)`. -/
def String.compare_equal (s : String) (str : Option (List Char)) : Except Fault Bool :=
  if catch_null_exception str || catch_null_exception s._data then .ok false
  else
    match s._data, str with
    | some d, some m =>
      match compare_loop d m (d.length + 1) 0 with
      | .error e => .error e
      | .ok i => .ok (i == s._length)
    | _, _ => .ok false

/-- `String::compare_equal(const self_type& str)`. -/
def String.compare_equal_String (s str : String) : Except Fault Bool :=
  if s._length ≠ str._length then .ok false
  else if s._length = 0 ∧ str._length = 0 then .ok true
  else s.compare_equal str._data

/-- `String::push_back`. -/
def String.push_back (junk : Junk) (s : String) (character : Char) : Except Fault String :=
  match (if s._length ≥ size_sub s._capacity 1
         then s.resize junk ((s._capacity * 2) % SIZE_MOD) else .ok s) with
  | .error e => .error e
  | .ok s1 =>
    match store s1._data s1._length character with
    | .error e => .error e
    | .ok d1 =>
      let length := (s1._length + 1) % SIZE_MOD
      match store (some d1) length NUL with
      | .error e => .error e
      | .ok d2 => .ok ⟨some d2, length, s1._capacity⟩

/-- `operator==(const String&, const char*)`. -/
def operator_eq_cstr (lhs : String) (rhs : Option (List Char)) : Except Fault Bool :=
  lhs.compare_equal rhs

/-- `operator==(const char*, const String&)`. -/
def operator_eq_cstr_left (lhs : Option (List Char)) (rhs : String) : Except Fault Bool :=
  operator_eq_cstr rhs lhs

/-- `operator==(const String&, const String&)`. -/
def operator_eq (lhs rhs : String) : Except Fault Bool :=
  lhs.compare_equal_String rhs

/-- `operator!=(const String&, const char*)`. -/
def operator_ne_cstr (lhs : String) (rhs : Option (List Char)) : Except Fault Bool :=
  match operator_eq_cstr lhs rhs with
  | .error e => .error e
  | .ok b => .ok (!b)

/-- `operator!=(const char*, const String&)`. -/
def operator_ne_cstr_left (lhs : Option (List Char)) (rhs : String) : Except Fault Bool :=
  operator_ne_cstr rhs lhs

/-- `operator!=(const String&, const String&)`. -/
def operator_ne (lhs rhs : String) : Except Fault Bool :=
  match operator_eq lhs rhs with
  | .error e => .error e
  | .ok b => .ok (!b)

/-- Conversion of an integer value to `index_type` (`int`): reduction to 32 bits,
two's complement.  The residue `r = n % 2^32` stands for `r` when `r < 2^31` and
for `r - 2^32` otherwise. -/
def to_index_type (n : Int) : Int :=
  if (n % INT_MOD).toNat < 2 ^ 31 then n % INT_MOD else n % INT_MOD - INT_MOD

/-- Conversion of an `index_type` value to `size_type`. -/
def to_size_type (i : Int) : Nat := (i % (SIZE_MOD : Int)).toNat

/-- `String::validate_position(index_type& pos)`: the embedding returns the
value left in `pos`; the error carries the value of `pos` at the `throw`.
In `pos += _length` the `int` is converted to `size_t`, the sum is taken in
`size_t` and converted back to `int`. -/
def String.validate_position (s : String) (pos : Int) : Except Fault Int :=
  let pos1 :=
    if pos < 0 then to_index_type (((to_size_type pos + s._length) % SIZE_MOD : Nat))
    else pos
  if pos1 < to_index_type s._length ∧ pos1 ≥ 0 then .ok pos1
  else .error (.out_of_range pos1)

/-- `String::operator[]`: the reference `_data[pos]` returned is the number of
the cell it designates; forming it outside the storage is undefined. -/
def String.operator_index (s : String) (pos : Int) : Except Fault Nat :=
  match s.validate_position pos with
  | .error e => .error e
  | .ok p =>
    match s._data with
    | none => .error .undefined
    | some d => if p.toNat < d.length then .ok p.toNat else .error .undefined

/-- The second member of `struct out_of_range`, read by `out_of_range::index()`. -/
def Fault.index : Fault → Option Int
  | .out_of_range pos => some pos
  | _ => none

/-- A C string literal: the characters followed by the terminator. -/
def cstr (s : List Char) : Option (List Char) := some (s ++ [NUL])

/-- Junk used in examples: every fresh cell holds `'?'`. -/
def junk0 : Junk := fun _ => '?'

/-- The content of the buffer: the cells `[0, _length)` of its storage. -/
def String.content (s : String) : List Char :=
  match s._data with
  | none => []
  | some d => d.take s._length

/-- The data-model invariants: an unallocated buffer has length 0 and capacity 1;
the storage of an allocated buffer has `_capacity` cells, `_length + 1 ≤ _capacity`
and `_data[_length] == '\0'`. -/
def String.Inv (s : String) : Prop :=
  match s._data with
  | none => s._length = 0 ∧ s._capacity = 1
  | some d => d.length = s._capacity ∧ s._length + 1 ≤ s._capacity ∧ d[s._length]? = some NUL

/-- The characters of an object before its first terminator. -/
def before_nul (m : List Char) : List Char := m.takeWhile (fun c => c != NUL)

/-- `String::append(InputIterator first, InputIterator last)` over the range
`cs`: one `push_back` per element; `junk k` is the indeterminate content of the
allocation made, if any, by the `k`-th call. -/
def String.append_range (junk : Nat → Junk) (s : String) : List Char → Except Fault String
  | [] => .ok s
  | c :: rest =>
    match s.push_back (junk 0) c with
    | .error e => .error e
    | .ok s1 => String.append_range (fun k => junk (k + 1)) s1 rest

/-- `String::String(InputIterator begin, InputIterator end)`. -/
def String.ctor_range (junk : Nat → Junk) (cs : List Char) : Except Fault String :=
  String.ctor_default.append_range junk cs

/-- The run of `append_range` with a counter: the number of `push_back` calls
after which `capacity()` differs from its value before the call. -/
def String.append_count (junk : Nat → Junk) (s : String) :
    List Char → Except Fault (Nat × String)
  | [] => .ok (0, s)
  | c :: rest =>
    match s.push_back (junk 0) c with
    | .error e => .error e
    | .ok s1 =>
      match String.append_count (fun k => junk (k + 1)) s1 rest with
      | .error e => .error e
      | .ok (k, s2) => .ok ((if s1._capacity ≠ s._capacity then 1 else 0) + k, s2)

/-- A call of a public mutating member function. -/
inductive Op where
  | resize (n : Nat) : Op
  | reserve (n : Nat) : Op
  | push_back (c : Char) : Op
  | copy (str : Option (List Char)) (len : Nat) : Op

/-- The buffer after one call. -/
def Op.apply (junk : Junk) (s : String) : Op → Except Fault String
  | .resize n => s.resize junk n
  | .reserve n => s.reserve junk n
  | .push_back c => s.push_back junk c
  | .copy str len =>
    match s.copy junk str len with
    | .error e => .error e
    | .ok (_, s1) => .ok s1

/-- The buffer after a sequence of calls; `junk k` serves the `k`-th call. -/
def run (junk : Nat → Junk) (s : String) : List Op → Except Fault String
  | [] => .ok s
  | op :: rest =>
    match op.apply (junk 0) s with
    | .error e => .error e
    | .ok s1 => run (fun k => junk (k + 1)) s1 rest

/-- The calls covered by the invariant theorem: `push_back` with a doubled
capacity that `size_type` can hold, and `resize` and `reserve` of an allocated
buffer with a capacity that `size_type` can hold. -/
def Op.covered (s : String) : Op → Prop
  | .resize n => s._data ≠ none ∧ n + 1 < SIZE_MOD
  | .reserve n => s._data ≠ none ∧ n < SIZE_MOD
  | .push_back _ => 2 * s._capacity + 1 < SIZE_MOD
  | .copy _ _ => False

instance Op.decCovered (s : String) : (op : Op) → Decidable (op.covered s)
  | .resize n => inferInstanceAs (Decidable (s._data ≠ none ∧ n + 1 < SIZE_MOD))
  | .reserve n => inferInstanceAs (Decidable (s._data ≠ none ∧ n < SIZE_MOD))
  | .push_back _ => inferInstanceAs (Decidable (2 * s._capacity + 1 < SIZE_MOD))
  | .copy _ _ => inferInstanceAs (Decidable False)

/-- Every call of the sequence is covered at the state it is applied to. -/
def Covered (junk : Nat → Junk) (s : String) : List Op → Bool
  | [] => true
  | op :: rest =>
    decide (op.covered s) &&
      match op.apply (junk 0) s with
      | .error _ => true
      | .ok s1 => Covered (fun k => junk (k + 1)) s1 rest

instance String.decInv : (s : String) → Decidable s.Inv
  | ⟨none, L, cap⟩ => inferInstanceAs (Decidable (L = 0 ∧ cap = 1))
  | ⟨some d, L, cap⟩ =>
    inferInstanceAs (Decidable (d.length = cap ∧ L + 1 ≤ cap ∧ d[L]? = some NUL))

/-! ## Lists of cells -/

theorem before_nul_nil : before_nul [] = [] := rfl

theorem before_nul_cons_nul (m : List Char) : before_nul (NUL :: m) = [] := by
  simp [before_nul]

theorem before_nul_cons_ne {c : Char} (m : List Char) (h : c ≠ NUL) :
    before_nul (c :: m) = c :: before_nul m := by
  simp [before_nul, h]

theorem nul_not_mem_before_nul (m : List Char) : NUL ∉ before_nul m := by
  induction m with
  | nil => simp [before_nul]
  | cons c m ih =>
    by_cases h : c = NUL
    · subst h; simp [before_nul_cons_nul]
    · rw [before_nul_cons_ne m h]
      simp only [List.mem_cons, not_or]
      exact ⟨fun e => h e.symm, ih⟩

theorem before_nul_length_le (m : List Char) : (before_nul m).length ≤ m.length := by
  induction m with
  | nil => simp [before_nul]
  | cons c m ih =>
    by_cases h : c = NUL
    · subst h; simp [before_nul_cons_nul]
    · rw [before_nul_cons_ne m h]; simp; exact ih

theorem before_nul_pfx (m : List Char) : before_nul m <+: m :=
  List.takeWhile_prefix _

theorem getElem?_before_nul_length {m : List Char} (h : NUL ∈ m) :
    m[(before_nul m).length]? = some NUL := by
  induction m with
  | nil => simp at h
  | cons c m ih =>
    by_cases hc : c = NUL
    · subst hc; simp [before_nul_cons_nul]
    · rw [before_nul_cons_ne m hc]
      have hm : NUL ∈ m := by
        rcases List.mem_cons.mp h with e | e
        · exact absurd e.symm hc
        · exact e
      simpa using ih hm

theorem before_nul_append_nul {w : List Char} (r : List Char) (h : NUL ∉ w) :
    before_nul (w ++ NUL :: r) = w := by
  induction w with
  | nil => simp [before_nul_cons_nul]
  | cons c w ih =>
    have hc : c ≠ NUL := fun e => h (by simp [e])
    have hw : NUL ∉ w := fun e => h (by simp [e])
    simp [before_nul_cons_ne _ hc, ih hw]

theorem drop_of_getElem? {m : List Char} {pos : Nat} {c : Char} (h : m[pos]? = some c) :
    m.drop pos = c :: m.drop (pos + 1) := by
  obtain ⟨hlt, hc⟩ := List.getElem?_eq_some.mp h
  rw [List.drop_eq_getElem_cons hlt, hc]

theorem drop_of_getElem?_none {m : List Char} {pos : Nat} (h : m[pos]? = none) :
    m.drop pos = [] :=
  List.drop_eq_nil_of_le (List.getElem?_eq_none_iff.mp h)

theorem eq_take_append_of_getElem? {d : List Char} {n : Nat} (h : d[n]? = some NUL) :
    d = d.take n ++ NUL :: d.drop (n + 1) := by
  conv_lhs => rw [← List.take_append_drop n d]
  rw [drop_of_getElem? h]

theorem before_nul_of_content {d : List Char} {n : Nat} (h : d[n]? = some NUL)
    (hfree : NUL ∉ d.take n) : before_nul d = d.take n := by
  conv_lhs => rw [eq_take_append_of_getElem? h]
  exact before_nul_append_nul _ hfree

theorem set_take_drop (out : List Char) (i : Nat) (c : Char) (seg : List Char)
    (h : i + (seg.length + 1) ≤ out.length) :
    (out.set i c).take (i + 1) ++ seg ++ (out.set i c).drop (i + 1 + seg.length)
      = out.take i ++ (c :: seg) ++ out.drop (i + (seg.length + 1)) := by
  induction out generalizing i with
  | nil => simp at h
  | cons x out ih =>
    cases i with
    | zero => simp [Nat.add_comm]
    | succ i =>
      have h' : i + (seg.length + 1) ≤ out.length := by simp at h; omega
      have e := ih i h'
      have e1 : i + 1 + 1 + seg.length = (i + 1 + seg.length) + 1 := by omega
      have e2 : i + 1 + (seg.length + 1) = (i + (seg.length + 1)) + 1 := by omega
      simp only [List.set_cons_succ, List.take_succ_cons, e1, e2, List.drop_succ_cons,
        List.cons_append]
      rw [← List.cons_append, ← List.cons_append] at *
      simpa using e

/-! ## The loops -/

theorem len_loop_spec (m : List Char) : ∀ (fuel length : Nat), NUL ∈ m.drop length →
    (before_nul (m.drop length)).length < fuel →
    len_loop m fuel length = .ok (length + (before_nul (m.drop length)).length) := by
  intro fuel
  induction fuel with
  | zero => intro length _ h; omega
  | succ fuel ih =>
    intro length hnul hfuel
    unfold len_loop
    cases hc : m[length]? with
    | none => rw [drop_of_getElem?_none hc] at hnul; simp at hnul
    | some c =>
      rw [drop_of_getElem? hc] at hnul hfuel ⊢
      by_cases hz : c = NUL
      · subst hz; simp [before_nul_cons_nul]
      · rw [before_nul_cons_ne _ hz] at hfuel ⊢
        have hnul' : NUL ∈ m.drop (length + 1) := by
          rcases List.mem_cons.mp hnul with e | e
          · exact absurd e.symm hz
          · exact e
        simp only [List.length_cons] at hfuel ⊢
        simp only [ne_eq, hz, not_false_eq_true, if_true]
        rw [ih (length + 1) hnul' (by omega)]
        congr 1; omega

theorem len_spec (m : List Char) (h : NUL ∈ m) : len (some m) = .ok (before_nul m).length := by
  have hle := before_nul_length_le m
  have := len_loop_spec m (m.length + 1) 0 (by simpa using h) (by simp; omega)
  simpa [len, validate_pointer] using this

theorem copy_static_loop_spec (src : List Char) : ∀ (k i pos : Nat) (out : List Char),
    (k ≤ (before_nul (src.drop pos)).length ∨ NUL ∈ src.drop pos) →
    i + ((before_nul (src.drop pos)).take k).length ≤ out.length →
    copy_static_loop src k i pos out
      = .ok (i + ((before_nul (src.drop pos)).take k).length,
             out.take i ++ (before_nul (src.drop pos)).take k
               ++ out.drop (i + ((before_nul (src.drop pos)).take k).length)) := by
  intro k
  induction k with
  | zero => intro i pos out _ _; simp [copy_static_loop]
  | succ k ih =>
    intro i pos out hsrc hout
    unfold copy_static_loop
    cases hc : src[pos]? with
    | none =>
      rw [drop_of_getElem?_none hc] at hsrc
      simp [before_nul_nil] at hsrc
    | some c =>
      rw [drop_of_getElem? hc] at hsrc hout ⊢
      by_cases hz : c = NUL
      · subst hz; simp [before_nul_cons_nul]
      · rw [before_nul_cons_ne _ hz] at hsrc hout ⊢
        simp only [List.take_succ_cons, List.length_cons] at hout ⊢
        have hsrc' : k ≤ (before_nul (src.drop (pos + 1))).length ∨ NUL ∈ src.drop (pos + 1) := by
          rcases hsrc with h | h
          · left; simp at h; omega
          · right
            rcases List.mem_cons.mp h with e | e
            · exact absurd e.symm hz
            · exact e
        have hi : i < out.length := by omega
        simp only [ne_eq, hz, not_false_eq_true, if_true, hi]
        rw [ih (i + 1) (pos + 1) (out.set i c) hsrc' (by rw [List.length_set]; omega)]
        rw [set_take_drop out i c _ hout]
        congr 2; omega

theorem copy_loop_spec (str : List Char) : ∀ (k i : Nat) (out : List Char),
    (k ≤ (before_nul (str.drop i)).length ∨ NUL ∈ str.drop i) →
    i + ((before_nul (str.drop i)).take k).length ≤ out.length →
    copy_loop str k i (some out)
      = .ok (i + ((before_nul (str.drop i)).take k).length,
             some (out.take i ++ (before_nul (str.drop i)).take k
               ++ out.drop (i + ((before_nul (str.drop i)).take k).length))) := by
  intro k
  induction k with
  | zero => intro i out _ _; simp [copy_loop]
  | succ k ih =>
    intro i out hsrc hout
    unfold copy_loop
    cases hc : str[i]? with
    | none =>
      rw [drop_of_getElem?_none hc] at hsrc
      simp [before_nul_nil] at hsrc
    | some c =>
      rw [drop_of_getElem? hc] at hsrc hout ⊢
      by_cases hz : c = NUL
      · subst hz; simp [before_nul_cons_nul]
      · rw [before_nul_cons_ne _ hz] at hsrc hout ⊢
        simp only [List.take_succ_cons, List.length_cons] at hout ⊢
        have hsrc' : k ≤ (before_nul (str.drop (i + 1))).length ∨ NUL ∈ str.drop (i + 1) := by
          rcases hsrc with h | h
          · left; simp at h; omega
          · right
            rcases List.mem_cons.mp h with e | e
            · exact absurd e.symm hz
            · exact e
        have hi : i < out.length := by omega
        simp only [ne_eq, hz, not_false_eq_true, if_true, store, hi]
        rw [ih (i + 1) (out.set i c) hsrc' (by rw [List.length_set]; omega)]
        rw [set_take_drop out i c _ hout]
        congr 2; omega

/-! ## `resize` -/

theorem SIZE_MOD_eq : SIZE_MOD = 18446744073709551616 := by decide

theorem size_sub_one {a : Nat} (h0 : 0 < a) (h : a < SIZE_MOD) : size_sub a 1 = a - 1 := by
  unfold size_sub
  rw [SIZE_MOD_eq] at *
  split <;> omega

theorem length_new_char (junk : Junk) (n : Nat) : (new_char junk n).length = n := by
  simp [new_char]

theorem mem_of_getElem? {d : List Char} {n : Nat} {c : Char} (h : d[n]? = some c) : c ∈ d := by
  obtain ⟨hlt, hc⟩ := List.getElem?_eq_some.mp h
  exact hc ▸ List.getElem_mem hlt

theorem take_of_pfx {l₁ l₂ : List Char} (h : l₁ <+: l₂) {k : Nat} (hk : k ≤ l₁.length) :
    l₁.take k = l₂.take k := by
  obtain ⟨t, rfl⟩ := h
  rw [List.take_append_of_le_length hk]

theorem length_take_before_nul (d : List Char) (n : Nat) :
    ((before_nul d).take n).length = min n (before_nul d).length := by
  simp [List.length_take]

/-- What `resize` does to an allocated buffer whose storage holds a terminator. -/
theorem resize_alloc_spec (junk : Junk) (s : String) (d : List Char) (n : Nat)
    (hd : s._data = some d) (hnul : NUL ∈ d) (hn : n + 1 < SIZE_MOD) :
    s.resize junk n
      = .ok ⟨some (((before_nul d).take n
                ++ (new_char junk (n + 1)).drop ((before_nul d).take n).length).set
                  ((before_nul d).take n).length NUL),
             ((before_nul d).take n).length, n + 1⟩ := by
  have hmod : (n + 1) % SIZE_MOD = n + 1 := Nat.mod_eq_of_lt hn
  have hsub : size_sub (n + 1) 1 = n := by rw [size_sub_one (by omega) hn, Nat.add_sub_cancel]
  have hlen : ((before_nul d).take n).length ≤ n := by rw [List.length_take]; omega
  have hloop := copy_static_loop_spec d n 0 0 (new_char junk (n + 1))
    (Or.inr (by simpa using hnul)) (by simp [length_new_char])
  simp only [List.drop_zero, Nat.zero_add, List.take_zero, List.nil_append] at hloop
  unfold String.resize
  simp only [hd, hmod, hsub, copy_static, validate_pointer, hloop, store]
  have hlt : ((before_nul d).take n).length
      < ((before_nul d).take n ++ (new_char junk (n + 1)).drop ((before_nul d).take n).length).length := by
    rw [List.length_append, List.length_drop, length_new_char]; omega
  rw [if_pos hlt]

theorem set_append_length (w r : List Char) (c : Char) (h : 0 < r.length) :
    (w ++ r).set w.length c = w ++ c :: r.drop 1 := by
  induction w with
  | nil =>
    cases r with
    | nil => simp at h
    | cons x r => simp
  | cons x w ih => simp [ih]

/-- The result of `resize` on an allocated buffer, cell by cell: the copied
characters, the terminator, then cells left as allocated. -/
theorem resize_alloc (junk : Junk) (s : String) (d : List Char) (n : Nat)
    (hd : s._data = some d) (hnul : NUL ∈ d) (hn : n + 1 < SIZE_MOD) :
    ∃ r : List Char,
      s.resize junk n
        = .ok ⟨some ((before_nul d).take n ++ NUL :: r), ((before_nul d).take n).length, n + 1⟩
      ∧ ((before_nul d).take n).length + 1 + r.length = n + 1 := by
  have hlen : ((before_nul d).take n).length ≤ n := by rw [List.length_take]; omega
  have hr : 0 < ((new_char junk (n + 1)).drop ((before_nul d).take n).length).length := by
    rw [List.length_drop, length_new_char]; omega
  refine ⟨((new_char junk (n + 1)).drop ((before_nul d).take n).length).drop 1, ?_, ?_⟩
  · rw [resize_alloc_spec junk s d n hd hnul hn, set_append_length _ _ _ hr]
  · rw [List.length_drop, List.length_drop, length_new_char]; omega

/-- The result of `resize` on an unallocated buffer. -/
theorem resize_unalloc (junk : Junk) (s : String) (n : Nat) (hd : s._data = none) :
    s.resize junk n
      = .ok ⟨some (new_char junk ((n + 1) % SIZE_MOD)), s._length, (n + 1) % SIZE_MOD⟩ := by
  simp [String.resize, hd]

theorem getElem?_append_cons_length (w r : List Char) (c : Char) :
    (w ++ c :: r)[w.length]? = some c := by
  rw [List.getElem?_append_right (Nat.le_refl _)]; simp

/-! ## `push_back` -/

/-- The two writes of `push_back` on a storage with room for them. -/
theorem push_back_writes (d : List Char) (L cap : Nat) (c : Char)
    (hroom : L + 2 ≤ d.length) (hsz : d.length < SIZE_MOD) :
    (match store (some d) L c with
      | Except.error e => Except.error e
      | Except.ok d1 =>
        match store (some d1) ((L + 1) % SIZE_MOD) NUL with
        | Except.error e => Except.error e
        | Except.ok d2 => (Except.ok ⟨some d2, (L + 1) % SIZE_MOD, cap⟩ : Except Fault String))
      = .ok ⟨some ((d.set L c).set (L + 1) NUL), L + 1, cap⟩ := by
  have h1 : L < d.length := by omega
  have h2 : L + 1 < (d.set L c).length := by rw [List.length_set]; omega
  have hmod : (L + 1) % SIZE_MOD = L + 1 := Nat.mod_eq_of_lt (by omega)
  simp only [store, h1, if_true, hmod, h2]

theorem take_set_self (d : List Char) (L : Nat) (c : Char) :
    (d.set L c).take L = d.take L := by
  induction d generalizing L with
  | nil => simp
  | cons x d ih => cases L <;> simp [ih]

theorem written_cells (d : List Char) (L : Nat) (c : Char) (hroom : L + 2 ≤ d.length) :
    ((d.set L c).set (L + 1) NUL).length = d.length
    ∧ ((d.set L c).set (L + 1) NUL).take L = d.take L
    ∧ ((d.set L c).set (L + 1) NUL)[L]? = some c
    ∧ ((d.set L c).set (L + 1) NUL)[L + 1]? = some NUL := by
  refine ⟨by simp, ?_, ?_, ?_⟩
  · rw [List.take_set_of_lt _ _ (by omega), take_set_self]
  · rw [List.getElem?_set_ne (by omega), List.getElem?_set_self (by omega)]
  · rw [List.getElem?_set_self (by rw [List.length_set]; omega)]

/-! ## Construction from a C string -/

theorem set_append_singleton (w r : List Char) (c : Char) (h : r.length = 1) :
    (w ++ r).set w.length c = w ++ [c] := by
  rw [set_append_length w r c (by omega)]
  have : r.drop 1 = [] := List.drop_eq_nil_of_le (by omega)
  rw [this]

/-- The buffer built by `String(const_pointer)` from a terminated sequence. -/
theorem ctor_cstr_spec (junk : Junk) (m : List Char) (hnul : NUL ∈ m)
    (hfit : (before_nul m).length + 1 < SIZE_MOD) :
    String.ctor_cstr junk (some m)
      = .ok ⟨some (before_nul m ++ [NUL]), (before_nul m).length, (before_nul m).length + 1⟩ := by
  have hloop := copy_loop_spec m ((before_nul m).length + 1) 0
    (new_char junk ((before_nul m).length + 1)) (Or.inr (by simpa using hnul))
    (by simp [length_new_char])
  simp only [List.drop_zero, Nat.zero_add, List.take_zero, List.nil_append,
    List.take_of_length_le (Nat.le_succ _)] at hloop
  have hr : ((new_char junk ((before_nul m).length + 1)).drop (before_nul m).length).length = 1 := by
    rw [List.length_drop, length_new_char]; omega
  unfold String.ctor_cstr
  rw [len_spec m hnul]
  simp only [Nat.mod_eq_of_lt hfit, String.ctor_size, String.copy, validate_pointer,
    gt_iff_lt, lt_irrefl, if_false, hloop, store, List.length_append, hr,
    Nat.lt_succ_self, if_true, set_append_singleton _ _ _ hr]

/-! ## `push_back`, case by case -/

theorem before_nul_append_cons_nul (w r : List Char) :
    before_nul (w ++ NUL :: r) = before_nul w := by
  induction w with
  | nil => simp [before_nul_cons_nul, before_nul_nil]
  | cons c w ih =>
    by_cases hc : c = NUL
    · subst hc; simp [before_nul_cons_nul]
    · simp [before_nul_cons_ne _ hc, ih]

theorem before_nul_of_terminated {d : List Char} {L : Nat} (h : d[L]? = some NUL) :
    before_nul d = before_nul (d.take L) := by
  conv_lhs => rw [eq_take_append_of_getElem? h]
  exact before_nul_append_cons_nul _ _

theorem before_nul_length_le_of_terminated {d : List Char} {L : Nat} (h : d[L]? = some NUL) :
    (before_nul d).length ≤ L := by
  rw [before_nul_of_terminated h]
  exact Nat.le_trans (before_nul_length_le _) (List.length_take_le _ _)

theorem push_back_step (junk : Junk) (s : String) (c : Char) (d1 : List Char) (L1 cap1 : Nat)
    (h : (if s._length ≥ size_sub s._capacity 1
          then s.resize junk ((s._capacity * 2) % SIZE_MOD) else .ok s)
        = .ok ⟨some d1, L1, cap1⟩)
    (hroom : L1 + 2 ≤ d1.length) (hsz : d1.length < SIZE_MOD) :
    s.push_back junk c = .ok ⟨some ((d1.set L1 c).set (L1 + 1) NUL), L1 + 1, cap1⟩ := by
  unfold String.push_back
  rw [h]
  exact push_back_writes d1 L1 cap1 c hroom hsz

/-- `push_back` on the unallocated buffer. -/
theorem push_back_unalloc (junk : Junk) (c : Char) :
    (⟨none, 0, 1⟩ : String).push_back junk c = .ok ⟨some [c, NUL, junk 2], 1, 3⟩ := by
  rfl

/-- `push_back` when there is room: no reallocation. -/
theorem push_back_room (junk : Junk) (L cap : Nat) (d : List Char) (c : Char)
    (hlen : d.length = cap) (hroom : L + 2 ≤ cap) (hsz : cap < SIZE_MOD) :
    (⟨some d, L, cap⟩ : String).push_back junk c
      = .ok ⟨some ((d.set L c).set (L + 1) NUL), L + 1, cap⟩ := by
  apply push_back_step
  · have hsub : size_sub cap 1 = cap - 1 := size_sub_one (by omega) hsz
    have hno : ¬ (L ≥ cap - 1) := by omega
    simp only [hsub, hno, if_false]
  · omega
  · omega

/-- `push_back` on a full buffer: reallocation to `2 * capacity + 1` cells. -/
theorem push_back_full (junk : Junk) (L cap : Nat) (d : List Char) (c : Char)
    (hfull : L + 1 = cap) (hterm : d[L]? = some NUL) (hfit : 2 * cap + 1 < SIZE_MOD) :
    ∃ r : List Char,
      (⟨some d, L, cap⟩ : String).push_back junk c
        = .ok ⟨some (before_nul d ++ c :: NUL :: r), (before_nul d).length + 1, 2 * cap + 1⟩
      ∧ (before_nul d).length + 2 + r.length = 2 * cap + 1 := by
  have hle := before_nul_length_le_of_terminated hterm
  have hsub : size_sub cap 1 = cap - 1 := size_sub_one (by omega) (by omega)
  have hmod : (cap * 2) % SIZE_MOD = cap * 2 := Nat.mod_eq_of_lt (by omega)
  obtain ⟨r, hres, hr⟩ := resize_alloc junk ⟨some d, L, cap⟩ d (cap * 2) rfl
    (mem_of_getElem? hterm) (by omega)
  have htake : (before_nul d).take (cap * 2) = before_nul d :=
    List.take_of_length_le (by omega)
  rw [htake] at hres hr
  have hr1 : 0 < r.length := by omega
  obtain ⟨x, r', rfl⟩ : ∃ x r', r = x :: r' := by
    cases r with
    | nil => simp at hr1
    | cons x r' => exact ⟨x, r', rfl⟩
  refine ⟨r', ?_, by simp at hr ⊢; omega⟩
  have hstep := push_back_step junk ⟨some d, L, cap⟩ c (before_nul d ++ NUL :: x :: r')
    (before_nul d).length (cap * 2 + 1)
    (by
      have hyes : L ≥ cap - 1 := by omega
      simp only [hsub, hmod, hyes, if_true]
      exact hres)
    (by simp) (by simp at hr ⊢; omega)
  rw [hstep]
  have e1 : (before_nul d ++ NUL :: x :: r').set (before_nul d).length c
      = before_nul d ++ c :: x :: r' := by
    rw [set_append_length _ _ _ (by simp)]; simp
  have e2 : (before_nul d ++ c :: x :: r').set ((before_nul d).length + 1) NUL
      = before_nul d ++ c :: NUL :: r' := by
    have := set_append_length (before_nul d ++ [c]) (x :: r') NUL (by simp)
    simp at this ⊢
  rw [e1, e2, Nat.mul_comm cap 2]

theorem set_set_eq (d : List Char) (L : Nat) (c : Char) (h : L + 2 ≤ d.length) :
    (d.set L c).set (L + 1) NUL = d.take L ++ c :: NUL :: d.drop (L + 2) := by
  induction d generalizing L with
  | nil => simp at h
  | cons x d ih =>
    cases L with
    | zero =>
      cases d with
      | nil => simp at h
      | cons y d => simp
    | succ L =>
      have h' : L + 2 ≤ d.length := by simp at h; omega
      simp [ih L h']

theorem content_length {s : String} (hinv : s.Inv) : s.content.length = s._length := by
  unfold String.Inv at hinv
  unfold String.content
  cases hd : s._data with
  | none => rw [hd] at hinv; simp [hinv.1]
  | some d =>
    rw [hd] at hinv
    simp only [List.length_take]
    omega

theorem before_nul_of_not_mem {w : List Char} (h : NUL ∉ w) : before_nul w = w := by
  induction w with
  | nil => rfl
  | cons c w ih =>
    have hc : c ≠ NUL := fun e => h (by simp [e])
    have hw : NUL ∉ w := fun e => h (by simp [e])
    rw [before_nul_cons_ne _ hc, ih hw]

/-- `push_back` on a buffer satisfying the invariants: the cells of the result. -/
theorem push_back_spec (junk : Junk) (s : String) (c : Char) (hinv : s.Inv)
    (hsz : s._capacity < SIZE_MOD)
    (hfit : s._length + 1 = s._capacity → 2 * s._capacity + 1 < SIZE_MOD) :
    ∃ w r : List Char,
      s.push_back junk c
        = .ok ⟨some (w ++ c :: NUL :: r), w.length + 1,
               if s._length + 1 = s._capacity then 2 * s._capacity + 1 else s._capacity⟩
      ∧ w.length + 2 + r.length
          = (if s._length + 1 = s._capacity then 2 * s._capacity + 1 else s._capacity)
      ∧ w = (if s._length + 1 = s._capacity then before_nul s.content else s.content) := by
  obtain ⟨data, L, cap⟩ := s
  cases data with
  | none =>
    obtain ⟨hL, hcap⟩ : L = 0 ∧ cap = 1 := hinv
    subst hL hcap
    exact ⟨[], [junk 2], push_back_unalloc junk c, rfl, rfl⟩
  | some d =>
    obtain ⟨hlen, hle, hterm⟩ : d.length = cap ∧ L + 1 ≤ cap ∧ d[L]? = some NUL := hinv
    simp only at hfit hsz
    by_cases hfull : L + 1 = cap
    · obtain ⟨r, hres, hr⟩ := push_back_full junk L cap d c hfull hterm (hfit hfull)
      refine ⟨before_nul d, r, ?_, ?_, ?_⟩
      · simp only [hfull, if_true]; exact hres
      · simp only [hfull, if_true]; exact hr
      · simp only [hfull, if_true, String.content]
        exact before_nul_of_terminated hterm
    · have hroom : L + 2 ≤ cap := by omega
      refine ⟨d.take L, d.drop (L + 2), ?_, ?_, ?_⟩
      · simp only [hfull, if_false]
        rw [push_back_room junk L cap d c hlen hroom hsz, set_set_eq d L c (by omega)]
        simp [List.length_take]
        omega
      · simp only [hfull, if_false, List.length_take, List.length_drop]
        omega
      · simp only [hfull, if_false, String.content]

/-! ## Invariants of the results -/

theorem inv_of_cells (w r : List Char) (cap : Nat) (h : w.length + 1 + r.length = cap) :
    (⟨some (w ++ NUL :: r), w.length, cap⟩ : String).Inv := by
  refine ⟨?_, ?_, getElem?_append_cons_length w r NUL⟩
  · simp only [List.length_append, List.length_cons]; omega
  · show w.length + 1 ≤ cap
    omega

theorem content_of_cells (w r : List Char) (cap : Nat) :
    (⟨some (w ++ NUL :: r), w.length, cap⟩ : String).content = w := by
  simp [String.content]

theorem resize_inv (junk : Junk) (s : String) (n : Nat) (hinv : s.Inv)
    (hd : s._data ≠ none) (hn : n + 1 < SIZE_MOD) :
    ∃ s1, s.resize junk n = .ok s1 ∧ s1.Inv ∧ s1._data ≠ none ∧ s1._capacity = n + 1 := by
  cases hdata : s._data with
  | none => exact absurd hdata hd
  | some d =>
    have hterm : d[s._length]? = some NUL := by
      unfold String.Inv at hinv
      rw [hdata] at hinv
      exact hinv.2.2
    obtain ⟨r, hres, hr⟩ := resize_alloc junk s d n hdata (mem_of_getElem? hterm) hn
    exact ⟨_, hres, inv_of_cells _ _ _ hr, by simp, rfl⟩

theorem inv_capacity_pos {s : String} (hinv : s.Inv) : 1 ≤ s._capacity := by
  unfold String.Inv at hinv
  cases hd : s._data with
  | none => rw [hd] at hinv; omega
  | some d => rw [hd] at hinv; omega

theorem reserve_inv (junk : Junk) (s : String) (n : Nat) (hinv : s.Inv)
    (hd : s._data ≠ none) (hn : n < SIZE_MOD) :
    ∃ s1, s.reserve junk n = .ok s1 ∧ s1.Inv ∧ s1._data ≠ none := by
  unfold String.reserve
  by_cases hc : s._capacity > n
  · exact ⟨s, by simp [hc], hinv, hd⟩
  · have hpos := inv_capacity_pos hinv
    have hsub : size_sub n 1 = n - 1 := size_sub_one (by omega) hn
    obtain ⟨s1, h1, h2, h3, _⟩ := resize_inv junk s (n - 1) hinv hd (by omega)
    exact ⟨s1, by simp only [hc, if_false, hsub]; exact h1, h2, h3⟩

theorem push_back_inv (junk : Junk) (s : String) (c : Char) (hinv : s.Inv)
    (hfit : 2 * s._capacity + 1 < SIZE_MOD) :
    ∃ s1, s.push_back junk c = .ok s1 ∧ s1.Inv ∧ s1._data ≠ none := by
  obtain ⟨w, r, hres, hlen, _⟩ := push_back_spec junk s c hinv (by omega) (fun _ => hfit)
  refine ⟨_, hres, ?_, by simp⟩
  have := inv_of_cells (w ++ [c]) r
    (if s._length + 1 = s._capacity then 2 * s._capacity + 1 else s._capacity)
    (by simp only [List.length_append, List.length_singleton]; omega)
  simpa using this

/-! ## Claim C1: the invariants along sequences of calls -/

theorem covered_step_inv (junk : Junk) (s : String) (op : Op) (hinv : s.Inv)
    (hcov : op.covered s) : ∃ s1, op.apply junk s = .ok s1 ∧ s1.Inv := by
  cases op with
  | resize n =>
    obtain ⟨s1, h1, h2, _⟩ := resize_inv junk s n hinv hcov.1 hcov.2
    exact ⟨s1, h1, h2⟩
  | reserve n =>
    obtain ⟨s1, h1, h2, _⟩ := reserve_inv junk s n hinv hcov.1 hcov.2
    exact ⟨s1, h1, h2⟩
  | push_back c =>
    obtain ⟨s1, h1, h2, _⟩ := push_back_inv junk s c hinv hcov
    exact ⟨s1, h1, h2⟩
  | copy str len => exact absurd hcov (by simp [Op.covered])

theorem run_covered_inv : ∀ (ops : List Op) (junk : Nat → Junk) (s : String), s.Inv →
    Covered junk s ops = true →
    ∀ k, k ≤ ops.length → ∃ s1, run junk s (ops.take k) = .ok s1 ∧ s1.Inv := by
  intro ops
  induction ops with
  | nil =>
    intro junk s hinv _ k hk
    have : k = 0 := by simpa using hk
    subst this
    exact ⟨s, rfl, hinv⟩
  | cons op rest ih =>
    intro junk s hinv hcov k hk
    cases k with
    | zero => exact ⟨s, rfl, hinv⟩
    | succ k =>
      simp only [Covered, Bool.and_eq_true, decide_eq_true_eq] at hcov
      obtain ⟨s1, h1, h2⟩ := covered_step_inv (junk 0) s op hinv hcov.1
      have hrest := hcov.2
      rw [h1] at hrest
      obtain ⟨s2, h3, h4⟩ := ih (fun k => junk (k + 1)) s1 h2 hrest k
        (by simpa using hk)
      refine ⟨s2, ?_, h4⟩
      simp only [List.take_succ_cons, run, h1]
      exact h3

/-- C1, as amended.  The default constructor and the constructor from a
terminated C string yield a buffer satisfying the data-model invariants
(`capacity >= length + 1`, and `data[length] == '\0'` in its `capacity` cells of
storage when allocated), and from a buffer satisfying them every sequence of
calls of `push_back`, and of `resize` and `reserve` on an allocated buffer, whose
capacities fit `size_type`, runs without fault and satisfies them after each call. -/
theorem invariants_along_covered_calls :
    String.ctor_default.Inv
    ∧ (∀ (junk : Junk) (m : List Char), NUL ∈ m → (before_nul m).length + 1 < SIZE_MOD →
        ∃ s0, String.ctor_cstr junk (some m) = .ok s0 ∧ s0.Inv)
    ∧ (∀ (junk : Nat → Junk) (s : String) (ops : List Op), s.Inv →
        Covered junk s ops = true →
        ∀ k, k ≤ ops.length → ∃ s1, run junk s (ops.take k) = .ok s1 ∧ s1.Inv) := by
  refine ⟨⟨rfl, rfl⟩, ?_, fun junk s ops => run_covered_inv ops junk s⟩
  intro junk m hnul hfit
  exact ⟨_, ctor_cstr_spec junk m hnul hfit, inv_of_cells _ [] _ (by simp)⟩

/-- Witness of C1 as amended: `String()` followed by `push_back('a')`,
`push_back('b')`, `resize(5)`, `reserve(10)`. -/
theorem invariants_along_covered_calls_witness :
    String.ctor_default.Inv
    ∧ Covered (fun _ => junk0) String.ctor_default
        [Op.push_back 'a', Op.push_back 'b', Op.resize 5, Op.reserve 10] = true
    ∧ ∃ s1, run (fun _ => junk0) String.ctor_default
        ([Op.push_back 'a', Op.push_back 'b', Op.resize 5, Op.reserve 10].take 4) = .ok s1
        ∧ s1.Inv :=
  ⟨by decide, by decide,
    invariants_along_covered_calls.2.2 (fun _ => junk0) String.ctor_default
      [Op.push_back 'a', Op.push_back 'b', Op.resize 5, Op.reserve 10]
      (by decide) (by decide) 4 (by decide)⟩

/-- Counterexample to C1: after `String("ab")`, the call `copy("xyz", 3)` leaves
length 3 in a storage of capacity 3, with no terminator; and `String(0)` has
capacity 0. -/
theorem invariants_broken_by_copy :
    String.ctor_cstr junk0 (cstr ['a', 'b']) = .ok ⟨some ['a', 'b', NUL], 2, 3⟩
    ∧ run (fun _ => junk0) ⟨some ['a', 'b', NUL], 2, 3⟩ [Op.copy (cstr ['x', 'y', 'z']) 3]
        = .ok ⟨some ['x', 'y', 'z'], 3, 3⟩
    ∧ ¬ ((⟨some ['x', 'y', 'z'], 3, 3⟩ : String)._capacity
          ≥ (⟨some ['x', 'y', 'z'], 3, 3⟩ : String)._length + 1)
    ∧ ¬ (⟨some ['x', 'y', 'z'], 3, 3⟩ : String).Inv
    ∧ (String.ctor_size junk0 0)._capacity = 0
    ∧ ¬ (String.ctor_size junk0 0).Inv := by
  decide

/-! ## Claim C2: construction from a C string -/

/-- C2.  For a terminated sequence `m` (whose scanned length plus one fits
`size_type`), `String(m)` returns a buffer whose length is `len(m)`, the number
of characters before the first terminator of `m`, whose characters at
`[0, length)` are those characters in order, and whose cell `data[length]` is
the terminator. -/
theorem ctor_cstr_round_trip (junk : Junk) (m : List Char) (hnul : NUL ∈ m)
    (hfit : (before_nul m).length + 1 < SIZE_MOD) :
    ∃ (s : String) (d : List Char),
      String.ctor_cstr junk (some m) = .ok s
      ∧ len (some m) = .ok s._length
      ∧ s._length = (before_nul m).length
      ∧ s._data = some d
      ∧ d.take s._length = before_nul m
      ∧ d[s._length]? = some NUL :=
  ⟨_, _, ctor_cstr_spec junk m hnul hfit, len_spec m hnul, rfl, rfl, by simp,
    getElem?_append_cons_length _ [] NUL⟩

/-- Witness of C2: `String("hello")`. -/
theorem ctor_cstr_round_trip_witness :
    NUL ∈ ['h', 'e', 'l', 'l', 'o', NUL]
    ∧ (before_nul ['h', 'e', 'l', 'l', 'o', NUL]).length + 1 < SIZE_MOD
    ∧ ∃ (s : String) (d : List Char),
      String.ctor_cstr junk0 (some ['h', 'e', 'l', 'l', 'o', NUL]) = .ok s
      ∧ len (some ['h', 'e', 'l', 'l', 'o', NUL]) = .ok s._length
      ∧ s._length = (before_nul ['h', 'e', 'l', 'l', 'o', NUL]).length
      ∧ s._data = some d
      ∧ d.take s._length = before_nul ['h', 'e', 'l', 'l', 'o', NUL]
      ∧ d[s._length]? = some NUL :=
  ⟨by decide, by decide,
    ctor_cstr_round_trip junk0 ['h', 'e', 'l', 'l', 'o', NUL] (by decide) (by decide)⟩

/-! ## Claim C3: what `push_back` appends -/

/-- Counterexample to C3: after `String()`, `push_back('\0')`, `push_back('\0')`
the buffer satisfies the invariants with length 2 and capacity 3; `push_back('a')`
then reallocates, the copy stops at the first terminator, and the length after
the call is 1, not 3. -/
theorem push_back_after_embedded_terminator :
    run (fun _ => junk0) String.ctor_default [Op.push_back NUL, Op.push_back NUL]
        = .ok ⟨some [NUL, NUL, NUL], 2, 3⟩
    ∧ (⟨some [NUL, NUL, NUL], 2, 3⟩ : String).Inv
    ∧ (⟨some [NUL, NUL, NUL], 2, 3⟩ : String).push_back junk0 'a'
        = .ok ⟨some ['a', NUL, '?', '?', '?', '?', '?'], 1, 7⟩
    ∧ (⟨some ['a', NUL, '?', '?', '?', '?', '?'], 1, 7⟩ : String)._length
        ≠ (⟨some [NUL, NUL, NUL], 2, 3⟩ : String)._length + 1 := by
  decide

/-- C3, as amended.  For a buffer satisfying the data-model invariants whose
characters at `[0, length)` are not the terminator and whose doubled capacity
`2 * capacity + 1` fits `size_type`, `push_back(c)` returns, the length is the
old length plus one, the characters at `[0, old length)` are unchanged, the
character at position `old length` is `c`, and `data[new length]` is the
terminator. -/
theorem push_back_appends (junk : Junk) (s : String) (c : Char) (hinv : s.Inv)
    (hfree : NUL ∉ s.content) (hfit : 2 * s._capacity + 1 < SIZE_MOD) :
    ∃ (s1 : String) (d1 : List Char),
      s.push_back junk c = .ok s1
      ∧ s1._length = s._length + 1
      ∧ s1._data = some d1
      ∧ d1.take s._length = s.content
      ∧ d1[s._length]? = some c
      ∧ d1[s1._length]? = some NUL := by
  obtain ⟨w, r, hres, _, hw⟩ := push_back_spec junk s c hinv (by omega) (fun _ => hfit)
  have hwc : w = s.content := by
    rw [hw, before_nul_of_not_mem hfree]; simp
  have hlen : w.length = s._length := by rw [hwc]; exact content_length hinv
  refine ⟨_, _, hres, by simp [hlen], rfl, ?_, ?_, ?_⟩
  · rw [← hlen, ← hwc]; simp
  · rw [← hlen]; exact getElem?_append_cons_length w _ c
  · have := getElem?_append_cons_length (w ++ [c]) r NUL
    simpa using this

/-- Witness of C3 as amended: `push_back('c')` on the buffer holding `"ab"` in a
storage of capacity 3. -/
theorem push_back_appends_witness :
    (⟨some ['a', 'b', NUL], 2, 3⟩ : String).Inv
    ∧ NUL ∉ (⟨some ['a', 'b', NUL], 2, 3⟩ : String).content
    ∧ 2 * (⟨some ['a', 'b', NUL], 2, 3⟩ : String)._capacity + 1 < SIZE_MOD
    ∧ ∃ (s1 : String) (d1 : List Char),
      (⟨some ['a', 'b', NUL], 2, 3⟩ : String).push_back junk0 'c' = .ok s1
      ∧ s1._length = 2 + 1
      ∧ s1._data = some d1
      ∧ d1.take 2 = ['a', 'b']
      ∧ d1[2]? = some 'c'
      ∧ d1[s1._length]? = some NUL :=
  ⟨by decide, by decide, by decide,
    push_back_appends junk0 ⟨some ['a', 'b', NUL], 2, 3⟩ 'c' (by decide) (by decide)
      (by decide)⟩

/-! ## Claim C4: `resize` truncates -/

/-- C4.  For an allocated buffer with `data[length] == '\0'` and `n` with `n + 1`
representable, `resize(n)` returns without error a buffer of capacity `n + 1`
(in `n + 1` cells) whose length is the minimum of `n` and the position of the
first terminator of the old storage, whose first characters up to that length
are the old ones, and whose `data[new length]` is the terminator; when the old
content is free of terminators the new length is `min(length, n)` and the new
content is the first `n` characters of the old one. -/
theorem resize_truncates (junk : Junk) (s : String) (d : List Char) (n : Nat)
    (hd : s._data = some d) (hterm : d[s._length]? = some NUL)
    (hn : n + 1 < SIZE_MOD) :
    ∃ d1 : List Char,
      s.resize junk n = .ok ⟨some d1, min n (before_nul d).length, n + 1⟩
      ∧ d[(before_nul d).length]? = some NUL
      ∧ NUL ∉ d.take (before_nul d).length
      ∧ d1.length = n + 1
      ∧ d1.take (min n (before_nul d).length) = d.take (min n (before_nul d).length)
      ∧ d1[min n (before_nul d).length]? = some NUL
      ∧ (NUL ∉ d.take s._length →
          min n (before_nul d).length = min s._length n
          ∧ d1.take (min s._length n) = (d.take s._length).take n) := by
  have hmem := mem_of_getElem? hterm
  obtain ⟨r, hres, hr⟩ := resize_alloc junk s d n hd hmem hn
  have hlen := length_take_before_nul d n
  have htake : (before_nul d).take n = d.take (min n (before_nul d).length) := by
    rw [← take_of_pfx (before_nul_pfx d) (Nat.min_le_right _ _)]
    rcases Nat.le_total n (before_nul d).length with h | h
    · rw [Nat.min_eq_left h]
    · rw [Nat.min_eq_right h, List.take_of_length_le h,
        List.take_of_length_le (Nat.le_refl _)]
  have hbn : d.take (before_nul d).length = before_nul d :=
    (List.prefix_iff_eq_take.mp (before_nul_pfx d)).symm
  refine ⟨(before_nul d).take n ++ NUL :: r, ?_, getElem?_before_nul_length hmem, ?_, ?_, ?_,
    ?_, ?_⟩
  · rw [hres, hlen]
  · rw [hbn]; exact nul_not_mem_before_nul d
  · simp only [List.length_append, List.length_cons]; omega
  · rw [← hlen, List.take_left, hlen, htake]
  · rw [← hlen]; exact getElem?_append_cons_length _ r NUL
  · intro hfree
    have hb : before_nul d = d.take s._length := before_nul_of_content hterm hfree
    have hL : (d.take s._length).length = s._length := by
      rw [List.length_take]
      have := (List.getElem?_eq_some.mp hterm).1
      omega
    have hmin : min n (before_nul d).length = min s._length n := by
      rw [hb, hL]; exact Nat.min_comm _ _
    refine ⟨hmin, ?_⟩
    rw [← hmin, ← hlen, List.take_left, hb]

/-- Witness of C4: the buffer holding `"hello"`, resized with `n = 3`, holds
`"hel"` with length 3. -/
theorem resize_truncates_witness :
    (⟨some ['h', 'e', 'l', 'l', 'o', NUL], 5, 6⟩ : String)._data
        = some ['h', 'e', 'l', 'l', 'o', NUL]
    ∧ ['h', 'e', 'l', 'l', 'o', NUL][5]? = some NUL
    ∧ 3 + 1 < SIZE_MOD
    ∧ (⟨some ['h', 'e', 'l', 'l', 'o', NUL], 5, 6⟩ : String).resize junk0 3
        = .ok ⟨some ['h', 'e', 'l', NUL], 3, 4⟩
    ∧ ∃ d1 : List Char,
      (⟨some ['h', 'e', 'l', 'l', 'o', NUL], 5, 6⟩ : String).resize junk0 3
        = .ok ⟨some d1, min 3 (before_nul ['h', 'e', 'l', 'l', 'o', NUL]).length, 3 + 1⟩
      ∧ d1.take (min 3 (before_nul ['h', 'e', 'l', 'l', 'o', NUL]).length)
          = ['h', 'e', 'l', 'l', 'o', NUL].take
              (min 3 (before_nul ['h', 'e', 'l', 'l', 'o', NUL]).length) :=
  ⟨rfl, by decide, by decide, by decide,
    (resize_truncates junk0 ⟨some ['h', 'e', 'l', 'l', 'o', NUL], 5, 6⟩
      ['h', 'e', 'l', 'l', 'o', NUL] 3 rfl (by decide) (by decide)).imp
      fun _ h => ⟨h.1, h.2.2.2.2.1⟩⟩

/-! ## The comparison loop -/

theorem getElem?_of_drop_cons {d : List Char} {i : Nat} {x : Char} {rest : List Char}
    (h : d.drop i = x :: rest) : d[i]? = some x ∧ d.drop (i + 1) = rest := by
  have hi : i < d.length := by
    by_contra hcon
    rw [List.drop_eq_nil_of_le (by omega)] at h
    simp at h
  rw [List.drop_eq_getElem_cons hi] at h
  simp only [List.cons.injEq] at h
  exact ⟨by rw [List.getElem?_eq_getElem hi, h.1], h.2⟩

theorem compare_loop_spec (d t : List Char) : ∀ (fuel i : Nat) (w r t' : List Char),
    d.drop i = w ++ NUL :: r → NUL ∉ w → t.drop i = t' → NUL ∈ t' → w.length < fuel →
    ∃ j, compare_loop d t fuel i = .ok j ∧ j ≤ i + w.length
      ∧ (j = i + w.length ↔ w <+: before_nul t') := by
  intro fuel
  induction fuel with
  | zero => intro i w r t' _ _ _ _ h; omega
  | succ fuel ih =>
    intro i w r t' hd hw ht hnul hfuel
    unfold compare_loop
    cases w with
    | nil =>
      obtain ⟨h1, _⟩ := getElem?_of_drop_cons (by simpa using hd)
      refine ⟨i, by simp [h1], by simp, by simp⟩
    | cons a w =>
      obtain ⟨h1, h2⟩ := getElem?_of_drop_cons (by simpa using hd)
      have ha : a ≠ NUL := fun e => hw (by simp [e])
      have hw' : NUL ∉ w := fun e => hw (by simp [e])
      cases t' with
      | nil => simp at hnul
      | cons b t'' =>
        obtain ⟨h3, h4⟩ := getElem?_of_drop_cons ht
        by_cases hb : b = NUL
        · subst hb
          refine ⟨i, by simp [h1, h3, ha], by simp, ?_⟩
          simp [before_nul_cons_nul]
        · by_cases hab : a = b
          · subst hab
            have hnul' : NUL ∈ t'' := by
              rcases List.mem_cons.mp hnul with e | e
              · exact absurd e.symm hb
              · exact e
            obtain ⟨j, hj1, hj2, hj3⟩ := ih (i + 1) w r t'' h2 hw' h4 hnul'
              (by simp at hfuel; omega)
            refine ⟨j, by simp [h1, h3, ha, hj1], by simp; omega, ?_⟩
            rw [before_nul_cons_ne _ hb, List.cons_prefix_cons]
            simp only [List.length_cons, true_and]
            rw [← hj3]; omega
          · refine ⟨i, by simp [h1, h3, ha, hb, hab], by simp, ?_⟩
            rw [before_nul_cons_ne _ hb, List.cons_prefix_cons]
            simp [hab]

/-- The C-string form of `compare_equal` on an allocated buffer with a
terminator-free content: it tests whether the content is a prefix of the
characters of the comparand. -/
theorem compare_equal_spec (s : String) (d t : List Char) (hd : s._data = some d)
    (hfree : NUL ∉ d.take s._length) (hterm : d[s._length]? = some NUL) (ht : NUL ∈ t) :
    ∃ b, s.compare_equal (some t) = .ok b
      ∧ (b = true ↔ d.take s._length <+: before_nul t) := by
  have hL : (d.take s._length).length = s._length := by
    rw [List.length_take]
    have := (List.getElem?_eq_some.mp hterm).1
    omega
  obtain ⟨j, hj1, _, hj3⟩ := compare_loop_spec d t (d.length + 1) 0 (d.take s._length)
    (d.drop (s._length + 1)) t (by simpa using eq_take_append_of_getElem? hterm) hfree
    (by simp) ht (by rw [List.length_take]; omega)
  refine ⟨j == s._length, ?_, ?_⟩
  · simp [String.compare_equal, hd, catch_null_exception, validate_pointer, hj1]
  · rw [← hj3, hL]; simp

theorem prefix_iff_take (w l : List Char) (L : Nat) (hL : w.length = L) (bn : List Char)
    (hbn : bn <+: l) : w <+: bn ↔ L ≤ bn.length ∧ l.take L = w := by
  constructor
  · intro h
    have hle : L ≤ bn.length := hL ▸ h.length_le
    refine ⟨hle, ?_⟩
    rw [← take_of_pfx hbn hle, ← hL]
    exact (List.prefix_iff_eq_take.mp h).symm
  · rintro ⟨hle, h⟩
    rw [List.prefix_iff_eq_take, hL, take_of_pfx hbn hle, h]

/-! ## Index validation -/

theorem to_index_type_of_small (n : Int) (h1 : -2 ^ 31 ≤ n) (h2 : n < 2 ^ 31) :
    to_index_type n = n := by
  unfold to_index_type INT_MOD
  split <;> omega

theorem normalize_negative (L : Nat) (i : Int) (hL : (L : Int) < 2 ^ 31) (hi : -2 ^ 31 ≤ i)
    (hneg : i < 0) :
    to_index_type (((to_size_type i + L) % SIZE_MOD : Nat) : Int) = i + L := by
  have hsz : ((to_size_type i : Nat) : Int) = i + 2 ^ 64 := by
    unfold to_size_type
    rw [Int.toNat_of_nonneg (Int.emod_nonneg _ (by rw [SIZE_MOD_eq]; decide)), SIZE_MOD_eq]
    push_cast
    omega
  unfold to_index_type INT_MOD
  rw [SIZE_MOD_eq]
  push_cast
  rw [hsz]
  split <;> omega

theorem validate_position_spec (s : String) (i : Int) (hL : (s._length : Int) < 2 ^ 31)
    (hi : -2 ^ 31 ≤ i ∧ i < 2 ^ 31) :
    s.validate_position i
      = if -(s._length : Int) ≤ i ∧ i < s._length
        then .ok (if i < 0 then i + s._length else i)
        else .error (.out_of_range (if i < 0 then i + s._length else i)) := by
  unfold String.validate_position
  rw [to_index_type_of_small (s._length : Int) (by omega) hL]
  by_cases hneg : i < 0
  · rw [if_pos hneg, normalize_negative s._length i hL hi.1 hneg]
    simp only [hneg, if_true]
    by_cases h : -(s._length : Int) ≤ i
    · rw [if_pos (by omega), if_pos (by omega)]
    · rw [if_neg (by omega), if_neg (by omega)]
  · rw [if_neg hneg]
    simp only [hneg, if_false]
    by_cases h : i < s._length
    · rw [if_pos (by omega), if_pos (by omega)]
    · rw [if_neg (by omega), if_neg (by omega)]

/-! ## Claim C5: equality with a C string -/

/-- C5 fails on the code: `String("abc") == "abcd"` is true, although `"abcd"`
has length 4 and the buffer length 3; the loop of `compare_equal(const_pointer)`
stops at the terminator of the buffer and the result only compares the count
with `_length`. -/
theorem compare_equal_accepts_longer_cstr :
    String.ctor_cstr junk0 (cstr ['a', 'b', 'c']) = .ok ⟨some ['a', 'b', 'c', NUL], 3, 4⟩
    ∧ (⟨some ['a', 'b', 'c', NUL], 3, 4⟩ : String).compare_equal (cstr ['a', 'b', 'c', 'd'])
        = .ok true
    ∧ operator_eq_cstr ⟨some ['a', 'b', 'c', NUL], 3, 4⟩ (cstr ['a', 'b', 'c', 'd']) = .ok true
    ∧ operator_eq_cstr_left (cstr ['a', 'b', 'c', 'd']) ⟨some ['a', 'b', 'c', NUL], 3, 4⟩
        = .ok true
    ∧ len (cstr ['a', 'b', 'c', 'd']) = .ok 4
    ∧ (⟨some ['a', 'b', 'c', NUL], 3, 4⟩ : String)._length = 3 := by
  decide

/-! ## Claim C6: equality of two buffers -/

theorem inv_unalloc_length {s : String} (hinv : s.Inv) (hd : s._data = none) :
    s._length = 0 := by
  unfold String.Inv at hinv
  rw [hd] at hinv
  exact hinv.1

theorem inv_alloc {s : String} {d : List Char} (hinv : s.Inv) (hd : s._data = some d) :
    d.length = s._capacity ∧ s._length + 1 ≤ s._capacity ∧ d[s._length]? = some NUL := by
  unfold String.Inv at hinv
  rw [hd] at hinv
  exact hinv

theorem compare_equal_String_spec (a b : String) (ha : a.Inv) (hb : b.Inv)
    (hfa : NUL ∉ a.content) (hfb : NUL ∉ b.content) :
    a.compare_equal_String b
      = .ok (decide (a._length = b._length ∧ a.content = b.content)) := by
  unfold String.compare_equal_String
  by_cases hlen : a._length = b._length
  · by_cases hz : a._length = 0
    · have hz' : b._length = 0 := hlen ▸ hz
      have ca : a.content = [] := List.eq_nil_of_length_eq_zero (by rw [content_length ha, hz])
      have cb : b.content = [] := List.eq_nil_of_length_eq_zero (by rw [content_length hb, hz'])
      simp [hz, hz', ca, cb]
    · cases hda : a._data with
      | none => exact absurd (inv_unalloc_length ha hda) hz
      | some da =>
        cases hdb : b._data with
        | none => exact absurd (hlen ▸ inv_unalloc_length hb hdb) hz
        | some db =>
          obtain ⟨_, _, hta⟩ := inv_alloc ha hda
          obtain ⟨_, _, htb⟩ := inv_alloc hb hdb
          have hca : a.content = da.take a._length := by simp [String.content, hda]
          have hcb : b.content = db.take b._length := by simp [String.content, hdb]
          rw [hca] at hfa
          rw [hcb] at hfb
          obtain ⟨r, hr1, hr2⟩ := compare_equal_spec a da db hda hfa hta (mem_of_getElem? htb)
          rw [before_nul_of_content htb hfb] at hr2
          have hlen_a : (da.take a._length).length = a._length := by
            rw [List.length_take]
            have := (List.getElem?_eq_some.mp hta).1
            omega
          have hlen_b : (db.take b._length).length = b._length := by
            rw [List.length_take]
            have := (List.getElem?_eq_some.mp htb).1
            omega
          have hiff : da.take a._length <+: db.take b._length
              ↔ da.take a._length = db.take b._length := by
            constructor
            · intro h
              exact h.eq_of_length (by rw [hlen_a, hlen_b, hlen])
            · intro h; rw [h]
          have hne : ¬ (a._length ≠ b._length) := by simp [hlen]
          have hnz : ¬ (a._length = 0 ∧ b._length = 0) := fun h => hz h.1
          rw [if_neg hne, if_neg hnz, hr1, hca, hcb]
          congr 1
          rw [hiff] at hr2
          by_cases he : da.take a._length = db.take b._length
          · rw [hr2.mpr he]
            exact (decide_eq_true ⟨hlen, he⟩).symm
          · have : r = false := by
              cases r with
              | false => rfl
              | true => exact absurd (hr2.mp rfl) he
            rw [this]
            exact (decide_eq_false (fun h => he h.2)).symm
  · simp [hlen]

/-- C6.  For two buffers satisfying the data-model invariants with
terminator-free content, `a.compare_equal(b)` and `a == b` return true exactly
when the lengths are equal and the characters at `[0, length)` are the same,
and `a != b` returns the negation; two buffers of length zero are equal,
allocated or not. -/
theorem compare_equal_String_iff (a b : String) (ha : a.Inv) (hb : b.Inv)
    (hfa : NUL ∉ a.content) (hfb : NUL ∉ b.content) :
    a.compare_equal_String b
        = .ok (decide (a._length = b._length ∧ a.content = b.content))
    ∧ operator_eq a b = .ok (decide (a._length = b._length ∧ a.content = b.content))
    ∧ operator_ne a b = .ok (!decide (a._length = b._length ∧ a.content = b.content))
    ∧ (a._length = 0 → b._length = 0 → operator_eq a b = .ok true) := by
  have h := compare_equal_String_spec a b ha hb hfa hfb
  refine ⟨h, h, by simp only [operator_ne, operator_eq, h], ?_⟩
  intro hza hzb
  have ca : a.content = [] := List.eq_nil_of_length_eq_zero (by rw [content_length ha, hza])
  have cb : b.content = [] := List.eq_nil_of_length_eq_zero (by rw [content_length hb, hzb])
  simp [operator_eq, h, hza, hzb, ca, cb]

/-- Witness of C6: the unallocated buffer `String()` against the allocated empty
buffer `String("")`. -/
theorem compare_equal_String_iff_witness :
    String.ctor_default.Inv ∧ (⟨some [NUL], 0, 1⟩ : String).Inv
    ∧ NUL ∉ String.ctor_default.content ∧ NUL ∉ (⟨some [NUL], 0, 1⟩ : String).content
    ∧ operator_eq String.ctor_default ⟨some [NUL], 0, 1⟩ = .ok true :=
  ⟨by decide, by decide, by decide, by decide,
    (compare_equal_String_iff String.ctor_default ⟨some [NUL], 0, 1⟩ (by decide) (by decide)
      (by decide) (by decide)).2.2.2 rfl rfl⟩

/-! ## Claims C7 and C8: `operator[]` -/

/-- C7.  For a buffer of length `L < 2^31` whose `L` characters lie in its
storage and a signed index `i` of type `int`, `operator[](i)` succeeds if and
only if `-L <= i < L`; it then refers to the cell `i` when `i >= 0` and to the
cell `L + i` when `i < 0`; in every other case it raises the `IndexError`
(`out_of_range`), and no cell is read or written. -/
theorem operator_index_range (s : String) (i : Int) (hL : (s._length : Int) < 2 ^ 31)
    (hi : -2 ^ 31 ≤ i ∧ i < 2 ^ 31) (hstore : s._length ≤ (s._data.getD []).length) :
    ((∃ k, s.operator_index i = .ok k) ↔ (-(s._length : Int) ≤ i ∧ i < s._length))
    ∧ (0 ≤ i → i < s._length → s.operator_index i = .ok i.toNat)
    ∧ (i < 0 → -(s._length : Int) ≤ i → s.operator_index i = .ok (s._length + i).toNat)
    ∧ (¬ (-(s._length : Int) ≤ i ∧ i < s._length) →
        ∃ p, s.operator_index i = .error (.out_of_range p)) := by
  have hv := validate_position_spec s i hL hi
  have hok : (-(s._length : Int) ≤ i ∧ i < s._length) →
      s.operator_index i = .ok (if i < 0 then i + s._length else i).toNat := by
    intro hr
    unfold String.operator_index
    rw [hv, if_pos hr]
    cases hd : s._data with
    | none =>
      rw [hd] at hstore
      simp at hstore
      omega
    | some d =>
      rw [hd] at hstore
      simp only [Option.getD_some] at hstore
      have : (if i < 0 then i + s._length else i).toNat < d.length := by
        split <;> omega
      simp only [this, if_true]
  have herr : ¬ (-(s._length : Int) ≤ i ∧ i < s._length) →
      s.operator_index i = .error (.out_of_range (if i < 0 then i + s._length else i)) := by
    intro hr
    unfold String.operator_index
    rw [hv, if_neg hr]
  refine ⟨⟨?_, fun hr => ⟨_, hok hr⟩⟩, ?_, ?_, fun hr => ⟨_, herr hr⟩⟩
  · rintro ⟨k, hk⟩
    by_contra hr
    rw [herr hr] at hk
    cases hk
  · intro h0 h1
    rw [hok ⟨by omega, h1⟩, if_neg (by omega)]
  · intro h0 h1
    rw [hok ⟨h1, by omega⟩, if_pos h0, Int.add_comm]

/-- Witness of C7: index `-1` on the buffer holding `"abcde"` refers to cell 4. -/
theorem operator_index_range_witness :
    ((⟨some ['a', 'b', 'c', 'd', 'e', NUL], 5, 6⟩ : String)._length : Int) < 2 ^ 31
    ∧ (-2 ^ 31 ≤ (-1 : Int) ∧ (-1 : Int) < 2 ^ 31)
    ∧ (⟨some ['a', 'b', 'c', 'd', 'e', NUL], 5, 6⟩ : String).operator_index (-1) = .ok 4 :=
  ⟨by norm_num, by norm_num,
    (operator_index_range ⟨some ['a', 'b', 'c', 'd', 'e', NUL], 5, 6⟩ (-1) (by norm_num)
      (by norm_num) (by decide)).2.2.1 (by decide) (by decide)⟩

/-- C8 fails on the code: on the buffer holding `"abcde"`, `buf[-6]` raises an
`out_of_range` whose `index()` is `-1`, the index after normalisation, not the
index `-6` that the caller passed; `validate_position` adds `_length` to its
reference parameter `pos` before the `throw` that reads it. -/
theorem out_of_range_carries_normalised_index :
    (⟨some ['a', 'b', 'c', 'd', 'e', NUL], 5, 6⟩ : String).operator_index (-6)
        = .error (.out_of_range (-1))
    ∧ Fault.index (.out_of_range (-1)) = some (-1)
    ∧ (⟨some ['a', 'b', 'c', 'd', 'e', NUL], 5, 6⟩ : String).operator_index 7
        = .error (.out_of_range 7) := by
  decide

/-! ## Appending characters one at a time -/

/-- `push_back` on a buffer with terminator-free content. -/
theorem push_back_free (junk : Junk) (s : String) (c : Char) (hinv : s.Inv)
    (hfree : NUL ∉ s.content) (hsz : s._capacity < SIZE_MOD)
    (hfit : s._length + 1 = s._capacity → 2 * s._capacity + 1 < SIZE_MOD) :
    ∃ s1, s.push_back junk c = .ok s1 ∧ s1.Inv ∧ s1.content = s.content ++ [c]
      ∧ s1._length = s._length + 1
      ∧ s1._capacity
          = (if s._length + 1 = s._capacity then 2 * s._capacity + 1 else s._capacity) := by
  obtain ⟨w, r, hres, hlen, hw⟩ := push_back_spec junk s c hinv hsz hfit
  have hwc : w = s.content := by
    rw [hw, before_nul_of_not_mem hfree]; simp
  have hwl : w.length = s._length := by rw [hwc]; exact content_length hinv
  have hcells : w ++ c :: NUL :: r = (w ++ [c]) ++ NUL :: r := by simp
  have hL : w.length + 1 = (w ++ [c]).length := by simp
  have hsum : (w ++ [c]).length + 1 + r.length
      = (if s._length + 1 = s._capacity then 2 * s._capacity + 1 else s._capacity) := by
    rw [← hL]; omega
  refine ⟨_, hres, ?_, ?_, by simp [hwl], rfl⟩
  · rw [hcells, hL]
    exact inv_of_cells (w ++ [c]) r _ hsum
  · rw [hcells, hL, content_of_cells, hwc]

theorem append_range_spec : ∀ (cs : List Char) (junk : Nat → Junk) (s : String), s.Inv →
    NUL ∉ s.content → NUL ∉ cs → s._capacity < SIZE_MOD →
    2 * (s._length + cs.length) + 1 < SIZE_MOD →
    ∃ s1, s.append_range junk cs = .ok s1 ∧ s1.Inv ∧ s1.content = s.content ++ cs
      ∧ s1._length = s._length + cs.length := by
  intro cs
  induction cs with
  | nil => intro junk s hinv _ _ _ _; exact ⟨s, rfl, hinv, by simp, by simp⟩
  | cons c cs ih =>
    intro junk s hinv hfree hcs hsz hfit
    have hpos := inv_capacity_pos hinv
    have hle : s._length + 1 ≤ s._capacity := by
      unfold String.Inv at hinv
      cases hd : s._data with
      | none => rw [hd] at hinv; omega
      | some d => rw [hd] at hinv; omega
    simp only [List.length_cons] at hfit
    obtain ⟨s1, h1, h2, h3, h4, h5⟩ := push_back_free (junk 0) s c hinv hfree hsz
      (fun h => by omega)
    have hc : c ≠ NUL := fun e => hcs (by simp [e])
    have hcs' : NUL ∉ cs := fun e => hcs (by simp [e])
    have hfree1 : NUL ∉ s1.content := by
      rw [h3]
      simp only [List.mem_append, List.mem_singleton, not_or]
      exact ⟨hfree, fun e => hc e.symm⟩
    have hsz1 : s1._capacity < SIZE_MOD := by
      rw [h5]; split <;> omega
    obtain ⟨s2, g1, g2, g3, g4⟩ := ih (fun k => junk (k + 1)) s1 h2 hfree1 hcs' hsz1
      (by rw [h4]; omega)
    refine ⟨s2, ?_, g2, ?_, ?_⟩
    · simp only [String.append_range, h1]; exact g1
    · rw [g3, h3]; simp
    · rw [g4, h4]; simp only [List.length_cons]; omega

/-! ## Claim C9: growth by doubling -/

theorem two_pow_succ_le {a b : Nat} (h : 2 ^ a < 2 ^ b) : 2 ^ (a + 1) ≤ 2 ^ b := by
  have hab : a < b := (Nat.pow_lt_pow_iff_right (by decide)).mp h
  exact Nat.pow_le_pow_right (by decide) hab

theorem SIZE_MOD_pow : SIZE_MOD = 2 ^ 64 := rfl

theorem inv_length_lt {s : String} (hinv : s.Inv) : s._length + 1 ≤ s._capacity := by
  unfold String.Inv at hinv
  cases hd : s._data with
  | none => rw [hd] at hinv; omega
  | some d => rw [hd] at hinv; omega

theorem append_count_spec : ∀ (cs : List Char) (junk : Nat → Junk) (s : String) (k0 : Nat),
    s.Inv → NUL ∉ s.content → NUL ∉ cs → s._capacity + 1 = 2 ^ (k0 + 1) →
    2 ^ k0 ≤ s._length + 1 → s._length + cs.length + 1 < SIZE_MOD →
    ∃ (k : Nat) (s1 : String),
      s.append_count junk cs = .ok (k, s1) ∧ s.append_range junk cs = .ok s1
      ∧ s1.Inv ∧ s1._length = s._length + cs.length
      ∧ s1._capacity + 1 = 2 ^ (k0 + k + 1) ∧ 2 ^ (k0 + k) ≤ s1._length + 1 := by
  intro cs
  induction cs with
  | nil =>
    intro junk s k0 hinv _ _ hcap hlow _
    exact ⟨0, s, rfl, rfl, hinv, by simp, hcap, hlow⟩
  | cons c cs ih =>
    intro junk s k0 hinv hfree hcs hcap hlow hfit
    simp only [List.length_cons] at hfit
    rw [SIZE_MOD_pow] at hfit
    have hp1 : 2 ^ (k0 + 1) = 2 * 2 ^ k0 := by rw [Nat.pow_succ]; omega
    have hp2 : 2 ^ (k0 + 1 + 1) = 2 * 2 ^ (k0 + 1) := by rw [Nat.pow_succ]; omega
    have hb1 : 2 ^ (k0 + 1) ≤ 2 ^ 64 := two_pow_succ_le (by omega)
    have hsz : s._capacity < SIZE_MOD := by rw [SIZE_MOD_pow]; omega
    have hfull : s._length + 1 = s._capacity → 2 * s._capacity + 1 < SIZE_MOD := by
      intro h
      have : 2 ^ (k0 + 1 + 1) ≤ 2 ^ 64 := two_pow_succ_le (by omega)
      rw [SIZE_MOD_pow]; omega
    obtain ⟨s1, h1, h2, h3, h4, h5⟩ := push_back_free (junk 0) s c hinv hfree hsz hfull
    have hc : c ≠ NUL := fun e => hcs (by simp [e])
    have hcs' : NUL ∉ cs := fun e => hcs (by simp [e])
    have hfree1 : NUL ∉ s1.content := by
      rw [h3]
      simp only [List.mem_append, List.mem_singleton, not_or]
      exact ⟨hfree, fun e => hc e.symm⟩
    by_cases hf : s._length + 1 = s._capacity
    · rw [if_pos hf] at h5
      obtain ⟨k, s2, g1, g2, gi, g3, g4, g5⟩ := ih (fun k => junk (k + 1)) s1 (k0 + 1) h2 hfree1 hcs'
        (by rw [h5]; omega) (by rw [h4]; omega) (by rw [h4, SIZE_MOD_pow]; omega)
      have hne : s1._capacity ≠ s._capacity := by rw [h5]; omega
      refine ⟨1 + k, s2, ?_, ?_, gi, ?_, ?_, ?_⟩
      · simp only [String.append_count, h1, g1, hne, ne_eq, not_false_eq_true, if_true]
      · simp only [String.append_range, h1]; exact g2
      · rw [g3, h4]; simp only [List.length_cons]; omega
      · rw [g4]; congr 1; omega
      · have : k0 + (1 + k) = k0 + 1 + k := by omega
        rw [this]; exact g5
    · rw [if_neg hf] at h5
      obtain ⟨k, s2, g1, g2, gi, g3, g4, g5⟩ := ih (fun k => junk (k + 1)) s1 k0 h2 hfree1 hcs'
        (by rw [h5]; omega) (by rw [h4]; omega) (by rw [h4, SIZE_MOD_pow]; omega)
      have hne : ¬ (s1._capacity ≠ s._capacity) := by rw [h5]; simp
      refine ⟨k, s2, ?_, ?_, gi, ?_, g4, g5⟩
      · simp only [String.append_count, h1, g1, hne, if_false, Nat.zero_add]
      · simp only [String.append_range, h1]; exact g2
      · rw [g3, h4]; simp only [List.length_cons]; omega

/-- C9.  For every sequence `cs` of `n` characters, none of them the terminator
(with `n + 1` a value of `size_type`), appended one at a time with `push_back`
to a default-constructed buffer, the calls return, the final length is `n`, the
final capacity is at least `n + 1`, and the number `k` of calls that change the
capacity is at most `floor(log2(n + 1))`, the capacity after these `k`
reallocations being `2^(k+1) - 1`. -/
theorem growth_by_doubling (junk : Nat → Junk) (cs : List Char) (hfree : NUL ∉ cs)
    (hfit : cs.length + 1 < SIZE_MOD) :
    ∃ (k : Nat) (s : String),
      String.ctor_default.append_count junk cs = .ok (k, s)
      ∧ String.ctor_range junk cs = .ok s
      ∧ s._length = cs.length
      ∧ s._capacity ≥ cs.length + 1
      ∧ k ≤ Nat.log 2 (cs.length + 1)
      ∧ s._capacity = 2 ^ (k + 1) - 1 := by
  obtain ⟨k, s, h1, h2, hi, h3, h4, h5⟩ := append_count_spec cs junk String.ctor_default 0
    (by decide) (by decide) hfree (by decide) (by decide)
    (by simpa [String.ctor_default] using hfit)
  have hlen : s._length = cs.length := by simpa [String.ctor_default] using h3
  simp only [Nat.zero_add] at h4 h5
  rw [hlen] at h5
  have hp : 2 ^ (k + 1) = 2 * 2 ^ k := by rw [Nat.pow_succ]; omega
  have hle := inv_length_lt hi
  refine ⟨k, s, h1, h2, hlen, by omega, Nat.le_log_of_pow_le (by decide) h5, by omega⟩

/-- Witness of C9: the three characters of `"abc"` cause two reallocations and
leave capacity 7. -/
theorem growth_by_doubling_witness :
    NUL ∉ ['a', 'b', 'c'] ∧ ['a', 'b', 'c'].length + 1 < SIZE_MOD
    ∧ String.ctor_default.append_count (fun _ => junk0) ['a', 'b', 'c']
        = .ok (2, ⟨some ['a', 'b', 'c', NUL, '?', '?', '?'], 3, 7⟩)
    ∧ ∃ (k : Nat) (s : String),
      String.ctor_default.append_count (fun _ => junk0) ['a', 'b', 'c'] = .ok (k, s)
      ∧ String.ctor_range (fun _ => junk0) ['a', 'b', 'c'] = .ok s
      ∧ s._length = ['a', 'b', 'c'].length
      ∧ s._capacity ≥ ['a', 'b', 'c'].length + 1
      ∧ k ≤ Nat.log 2 (['a', 'b', 'c'].length + 1)
      ∧ s._capacity = 2 ^ (k + 1) - 1 :=
  ⟨by decide, by decide, by decide,
    growth_by_doubling (fun _ => junk0) ['a', 'b', 'c'] (by decide) (by decide)⟩

/-! ## Claim C10: `reserve` -/

/-- C10.  For a buffer satisfying the data-model invariants with terminator-free
content and `n` of type `size_type`, `reserve(n)` returns and leaves the length
and the characters at `[0, length)` unchanged; the capacity afterwards is
`max(old capacity, n)`: the call changes nothing when `capacity > n`, and
otherwise, by `resize(n - 1)`, makes the capacity exactly `n`. -/
theorem reserve_frame (junk : Junk) (s : String) (n : Nat) (hinv : s.Inv)
    (hfree : NUL ∉ s.content) (hn : n < SIZE_MOD) :
    ∃ s1, s.reserve junk n = .ok s1
      ∧ s1._length = s._length
      ∧ s1.content = s.content
      ∧ s1._capacity = max s._capacity n
      ∧ (s._capacity > n → s1 = s)
      ∧ (¬ s._capacity > n → s.resize junk (n - 1) = .ok s1 ∧ s1._capacity = n) := by
  unfold String.reserve
  by_cases hc : s._capacity > n
  · refine ⟨s, by simp [hc], rfl, rfl, ?_, fun _ => rfl, fun h => absurd hc h⟩
    rw [Nat.max_eq_left (Nat.le_of_lt hc)]
  · have hpos := inv_capacity_pos hinv
    have hle := inv_length_lt hinv
    have hsub : size_sub n 1 = n - 1 := size_sub_one (by omega) hn
    have hn1 : n - 1 + 1 = n := by omega
    have hmax : max s._capacity n = n := Nat.max_eq_right (by omega)
    simp only [hc, if_false, hsub, hmax]
    cases hd : s._data with
    | none =>
      have hL := inv_unalloc_length hinv hd
      have hres := resize_unalloc junk s (n - 1) hd
      rw [hn1, Nat.mod_eq_of_lt hn] at hres
      refine ⟨_, hres, rfl, ?_, rfl, fun h => False.elim h, fun _ => ⟨hres, rfl⟩⟩
      simp [String.content, hd, hL]
    | some d =>
      obtain ⟨_, _, hterm⟩ := inv_alloc hinv hd
      have hcont : s.content = d.take s._length := by simp [String.content, hd]
      rw [hcont] at hfree
      have hb : before_nul d = d.take s._length := before_nul_of_content hterm hfree
      have hdl : (d.take s._length).length = s._length := by
        rw [List.length_take]
        have := (List.getElem?_eq_some.mp hterm).1
        omega
      obtain ⟨r, hres, hr⟩ := resize_alloc junk s d (n - 1) hd (mem_of_getElem? hterm)
        (by omega)
      have hseg : (before_nul d).take (n - 1) = d.take s._length := by
        rw [hb]; exact List.take_of_length_le (by omega)
      rw [hseg, hn1] at hres
      rw [hdl] at hres
      refine ⟨_, hres, rfl, ?_, rfl, fun h => False.elim h, fun _ => ⟨hres, rfl⟩⟩
      rw [hcont]
      have := content_of_cells (d.take s._length) r n
      rw [hdl] at this
      exact this

/-- Witness of C10: `reserve(10)` on the buffer holding `"ab"` in capacity 3. -/
theorem reserve_frame_witness :
    (⟨some ['a', 'b', NUL], 2, 3⟩ : String).Inv
    ∧ NUL ∉ (⟨some ['a', 'b', NUL], 2, 3⟩ : String).content
    ∧ 10 < SIZE_MOD
    ∧ ∃ s1, (⟨some ['a', 'b', NUL], 2, 3⟩ : String).reserve junk0 10 = .ok s1
      ∧ s1._length = 2
      ∧ s1.content = ['a', 'b']
      ∧ s1._capacity = max 3 10 :=
  ⟨by decide, by decide, by decide,
    (reserve_frame junk0 ⟨some ['a', 'b', NUL], 2, 3⟩ 10 (by decide) (by decide)
      (by decide)).imp fun _ h => ⟨h.1, h.2.1, h.2.2.1, h.2.2.2.1⟩⟩

/-! ## Claim C11: the instance `copy` -/

/-- Counterexample to C11: on the buffer built by `String("")`, `copy("a", n)`
with `n` the largest `size_type` value calls `resize(n)`, whose capacity `n + 1`
wraps to 0; the terminator is then written outside the new storage. -/
theorem copy_with_max_len_overflows :
    String.ctor_cstr junk0 (cstr []) = .ok ⟨some [NUL], 0, 1⟩
    ∧ (⟨some [NUL], 0, 1⟩ : String).Inv
    ∧ NUL ∈ ['a', NUL]
    ∧ (⟨some [NUL], 0, 1⟩ : String).copy junk0 (some ['a', NUL]) (SIZE_MOD - 1)
        = .error .undefined := by
  decide

/-- C11, as amended.  For an allocated buffer satisfying the data-model
invariants, a terminated sequence `m` and `max_len` with `max_len + 1`
representable, the instance `copy(m, max_len)` returns
`k = min(max_len, len(m))`, sets the length to `k`, makes the characters at
`[0, k)` the first `k` characters of `m`, and changes the capacity, to
`max_len + 1`, if and only if `max_len` exceeded the capacity before the call. -/
theorem copy_instance_spec (junk : Junk) (s : String) (m : List Char) (max_len : Nat)
    (hinv : s.Inv) (halloc : s._data ≠ none) (hnul : NUL ∈ m)
    (hfit : max_len + 1 < SIZE_MOD) :
    ∃ (s1 : String) (d1 : List Char),
      s.copy junk (some m) max_len = .ok (min max_len (before_nul m).length, s1)
      ∧ s1._length = min max_len (before_nul m).length
      ∧ s1._data = some d1
      ∧ d1.take s1._length = m.take s1._length
      ∧ (s1._capacity ≠ s._capacity ↔ max_len > s._capacity)
      ∧ (max_len > s._capacity → s1._capacity = max_len + 1) := by
  have hk := length_take_before_nul m max_len
  have hseg : (before_nul m).take max_len = m.take (min max_len (before_nul m).length) := by
    rw [← take_of_pfx (before_nul_pfx m) (Nat.min_le_right _ _)]
    rcases Nat.le_total max_len (before_nul m).length with h | h
    · rw [Nat.min_eq_left h]
    · rw [Nat.min_eq_right h, List.take_of_length_le h,
        List.take_of_length_le (Nat.le_refl _)]
  have hkle : ((before_nul m).take max_len).length ≤ max_len := by
    rw [hk]; exact Nat.min_le_left _ _
  -- the buffer after the optional `resize`
  have hpre : ∃ (s0 : String) (d0 : List Char),
      (if max_len > s._capacity then s.resize junk max_len else .ok s) = .ok s0
      ∧ s0._data = some d0 ∧ max_len ≤ d0.length
      ∧ s0._capacity = (if max_len > s._capacity then max_len + 1 else s._capacity) := by
    by_cases hgt : max_len > s._capacity
    · cases hd : s._data with
      | none => exact absurd hd halloc
      | some d =>
        obtain ⟨_, _, hterm⟩ := inv_alloc hinv hd
        obtain ⟨r, hres, hr⟩ := resize_alloc junk s d max_len hd (mem_of_getElem? hterm) hfit
        refine ⟨_, _, by rw [if_pos hgt]; exact hres, rfl, ?_, by simp [hgt]⟩
        simp only [List.length_append, List.length_cons]; omega
    · cases hd : s._data with
      | none => exact absurd hd halloc
      | some d =>
        obtain ⟨hlen, _, _⟩ := inv_alloc hinv hd
        exact ⟨s, d, by rw [if_neg hgt], hd, by omega, by simp [hgt]⟩
  obtain ⟨s0, d0, h0, hd0, hroom, hcap⟩ := hpre
  have hloop := copy_loop_spec m max_len 0 d0 (Or.inr (by simpa using hnul))
    (by simp only [List.drop_zero, Nat.zero_add]; omega)
  simp only [List.drop_zero, Nat.zero_add, List.take_zero, List.nil_append] at hloop
  refine ⟨⟨some ((before_nul m).take max_len ++ d0.drop ((before_nul m).take max_len).length),
    ((before_nul m).take max_len).length, s0._capacity⟩, _, ?_, hk, rfl, ?_, ?_, ?_⟩
  · simp only [String.copy, validate_pointer, h0, hd0, hloop, hk]
  · show ((before_nul m).take max_len
        ++ d0.drop ((before_nul m).take max_len).length).take ((before_nul m).take max_len).length
      = m.take ((before_nul m).take max_len).length
    rw [List.take_left, hk]
    exact hseg
  · simp only [hcap]
    by_cases hgt : max_len > s._capacity
    · simp only [hgt, if_true, iff_true]; omega
    · simp only [hgt, if_false, iff_false, ne_eq, not_true_eq_false, not_false_eq_true]
  · intro hgt
    simp only [hcap, hgt, if_true]

/-- Witness of C11 as amended: `copy("xyz", 2)` on the buffer holding `"ab"`. -/
theorem copy_instance_spec_witness :
    (⟨some ['a', 'b', NUL], 2, 3⟩ : String).Inv
    ∧ (⟨some ['a', 'b', NUL], 2, 3⟩ : String)._data ≠ none
    ∧ NUL ∈ ['x', 'y', 'z', NUL]
    ∧ 2 + 1 < SIZE_MOD
    ∧ ∃ s1 : String,
      (⟨some ['a', 'b', NUL], 2, 3⟩ : String).copy junk0 (some ['x', 'y', 'z', NUL]) 2
        = .ok (min 2 (before_nul ['x', 'y', 'z', NUL]).length, s1)
      ∧ s1._length = min 2 (before_nul ['x', 'y', 'z', NUL]).length :=
  ⟨by decide, by decide, by decide, by decide, by
    obtain ⟨s1, _, h⟩ := copy_instance_spec junk0 ⟨some ['a', 'b', NUL], 2, 3⟩
      ['x', 'y', 'z', NUL] 2 (by decide) (by decide) (by decide) (by decide)
    exact ⟨s1, h.1, h.2.1⟩⟩

/-! ## Claim C12: the static `copy` -/

theorem nul_mem_drop {d : List Char} {L pos : Nat} (hterm : d[L]? = some NUL)
    (hpos : pos ≤ L) : NUL ∈ d.drop pos := by
  have h : (d.drop pos)[L - pos]? = some NUL := by
    rw [List.getElem?_drop]
    have : pos + (L - pos) = L := by omega
    rw [this, hterm]
  exact mem_of_getElem? h

/-- C12.  For an allocated source buffer with `data[length] == '\0'`, a start
position `pos <= length`, a count `max_len` and a destination `out` with room
for `max_len` characters, the static `copy(source, out, max_len, pos)` returns
`k`, the minimum of `max_len` and the number of source characters from `pos` up
to the first terminator at or after `pos`; the destination then holds
`source[pos .. pos + k)` in its cells `[0, k)` and is unchanged elsewhere; no
terminator is among the characters written.  (The source is passed by reference
to `const`; the call yields no new source buffer.) -/
theorem copy_static_copies (s : String) (d out : List Char) (max_len pos : Nat)
    (hd : s._data = some d) (hterm : d[s._length]? = some NUL) (hpos : pos ≤ s._length)
    (hroom : max_len ≤ out.length) :
    ∃ k : Nat,
      copy_static s (some out) max_len pos = .ok (k, (d.drop pos).take k ++ out.drop k)
      ∧ k = min max_len (before_nul (d.drop pos)).length
      ∧ (d.drop pos)[(before_nul (d.drop pos)).length]? = some NUL
      ∧ NUL ∉ (d.drop pos).take k
      ∧ ((d.drop pos).take k ++ out.drop k).length = out.length := by
  have hmem := nul_mem_drop hterm hpos
  have hk := length_take_before_nul (d.drop pos) max_len
  have hkle : ((before_nul (d.drop pos)).take max_len).length ≤ max_len := by
    rw [hk]; exact Nat.min_le_left _ _
  have hseg : (before_nul (d.drop pos)).take max_len
      = (d.drop pos).take (min max_len (before_nul (d.drop pos)).length) := by
    rw [← take_of_pfx (before_nul_pfx (d.drop pos)) (Nat.min_le_right _ _)]
    rcases Nat.le_total max_len (before_nul (d.drop pos)).length with h | h
    · rw [Nat.min_eq_left h]
    · rw [Nat.min_eq_right h, List.take_of_length_le h,
        List.take_of_length_le (Nat.le_refl _)]
  have hloop := copy_static_loop_spec d max_len 0 pos out (Or.inr hmem) (by omega)
  simp only [Nat.zero_add, List.take_zero, List.nil_append] at hloop
  rw [hk, hseg] at hloop
  refine ⟨min max_len (before_nul (d.drop pos)).length, ?_, rfl,
    getElem?_before_nul_length hmem, ?_, ?_⟩
  · simp only [copy_static, validate_pointer, hd, hloop]
  · rw [← hseg]
    intro hin
    exact nul_not_mem_before_nul _ (List.mem_of_mem_take hin)
  · rw [← hseg, List.length_append, List.length_drop, hk]
    rw [hk] at hkle
    omega

/-- Witness of C12: two characters of `"hello"` from position 1 into a
destination of four cells. -/
theorem copy_static_copies_witness :
    (⟨some ['h', 'e', 'l', 'l', 'o', NUL], 5, 6⟩ : String)._data
        = some ['h', 'e', 'l', 'l', 'o', NUL]
    ∧ ['h', 'e', 'l', 'l', 'o', NUL][5]? = some NUL
    ∧ 1 ≤ 5 ∧ 2 ≤ ['?', '?', '?', '?'].length
    ∧ copy_static ⟨some ['h', 'e', 'l', 'l', 'o', NUL], 5, 6⟩ (some ['?', '?', '?', '?']) 2 1
        = .ok (2, ['e', 'l', '?', '?'])
    ∧ ∃ k : Nat,
      copy_static ⟨some ['h', 'e', 'l', 'l', 'o', NUL], 5, 6⟩ (some ['?', '?', '?', '?']) 2 1
        = .ok (k, (['h', 'e', 'l', 'l', 'o', NUL].drop 1).take k ++ ['?', '?', '?', '?'].drop k)
      ∧ k = min 2 (before_nul (['h', 'e', 'l', 'l', 'o', NUL].drop 1)).length :=
  ⟨rfl, by decide, by decide, by decide, by decide,
    (copy_static_copies ⟨some ['h', 'e', 'l', 'l', 'o', NUL], 5, 6⟩
      ['h', 'e', 'l', 'l', 'o', NUL] ['?', '?', '?', '?'] 2 1 rfl (by decide) (by decide)
      (by decide)).imp fun _ h => ⟨h.1, h.2.1⟩⟩

/-! ## Claim C13: equality and null -/

/-- C13.  `compare_equal` against a null C string returns false for every
buffer, allocated or not, and for a buffer whose storage is null it returns
false against every C string, the empty one included; in both cases the call
returns (nothing is raised), and so do the operators built on it. -/
theorem compare_equal_null_is_false :
    (∀ s : String, s.compare_equal none = .ok false
        ∧ operator_eq_cstr s none = .ok false
        ∧ operator_eq_cstr_left none s = .ok false
        ∧ operator_ne_cstr s none = .ok true)
    ∧ (∀ (L cap : Nat) (str : Option (List Char)),
        (⟨none, L, cap⟩ : String).compare_equal str = .ok false
        ∧ operator_eq_cstr ⟨none, L, cap⟩ str = .ok false)
    ∧ String.ctor_default.compare_equal (cstr []) = .ok false := by
  have h1 : ∀ s : String, s.compare_equal none = .ok false := by
    intro s
    simp [String.compare_equal, catch_null_exception, validate_pointer]
  have h2 : ∀ (L cap : Nat) (str : Option (List Char)),
      (⟨none, L, cap⟩ : String).compare_equal str = .ok false := by
    intro L cap str
    cases str <;> simp [String.compare_equal, catch_null_exception, validate_pointer]
  refine ⟨fun s => ⟨h1 s, h1 s, h1 s, ?_⟩, fun L cap str => ⟨h2 L cap str, h2 L cap str⟩,
    h2 0 1 _⟩
  simp [operator_ne_cstr, operator_eq_cstr, h1 s]

/-! ## Claim C14: the null-pointer error -/

theorem len_loop_not_invalid (m : List Char) : ∀ (fuel i : Nat),
    len_loop m fuel i ≠ .error .invalid_argument := by
  intro fuel
  induction fuel with
  | zero => intro i; simp [len_loop]
  | succ fuel ih =>
    intro i
    unfold len_loop
    cases m[i]? with
    | none => simp
    | some c =>
      by_cases hc : c = NUL
      · simp [hc]
      · simpa [hc] using ih (i + 1)

theorem copy_static_loop_not_invalid (src : List Char) : ∀ (k i pos : Nat) (out : List Char),
    copy_static_loop src k i pos out ≠ .error .invalid_argument := by
  intro k
  induction k with
  | zero => intro i pos out; simp [copy_static_loop]
  | succ k ih =>
    intro i pos out
    unfold copy_static_loop
    cases src[pos]? with
    | none => simp
    | some c =>
      by_cases hc : c = NUL
      · simp [hc]
      · by_cases hi : i < out.length
        · simpa [hc, hi] using ih (i + 1) (pos + 1) (out.set i c)
        · simp [hc, hi]

theorem copy_loop_not_invalid (str : List Char) : ∀ (k i : Nat) (data : Option (List Char)),
    copy_loop str k i data ≠ .error .invalid_argument := by
  intro k
  induction k with
  | zero => intro i data; simp [copy_loop]
  | succ k ih =>
    intro i data
    unfold copy_loop
    cases str[i]? with
    | none => simp
    | some c =>
      by_cases hc : c = NUL
      · simp [hc]
      · cases data with
        | none => simp [hc, store]
        | some d =>
          by_cases hi : i < d.length
          · simpa [hc, store, hi] using ih (i + 1) (some (d.set i c))
          · simp [hc, store, hi]

theorem store_not_invalid (p : Option (List Char)) (i : Nat) (c : Char) :
    store p i c ≠ .error .invalid_argument := by
  unfold store
  cases p with
  | none => simp
  | some d => by_cases hi : i < d.length <;> simp [hi]

theorem resize_not_invalid (junk : Junk) (s : String) (n : Nat) :
    s.resize junk n ≠ .error .invalid_argument := by
  unfold String.resize
  cases hd : s._data with
  | none => simp
  | some d =>
    simp only [copy_static, validate_pointer]
    cases hl : copy_static_loop d (size_sub ((n + 1) % SIZE_MOD) 1) 0 0
        (new_char junk ((n + 1) % SIZE_MOD)) with
    | error e =>
      have := copy_static_loop_not_invalid d (size_sub ((n + 1) % SIZE_MOD) 1) 0 0
        (new_char junk ((n + 1) % SIZE_MOD))
      rw [hl] at this
      simpa using this
    | ok r =>
      obtain ⟨k, t⟩ := r
      have := store_not_invalid (some t) k NUL
      simp only
      cases hs : store (some t) k NUL with
      | error e =>
        rw [hs] at this
        simpa using this
      | ok t2 => simp

theorem len_not_invalid (m : List Char) : len (some m) ≠ .error .invalid_argument := by
  simpa [len, validate_pointer] using len_loop_not_invalid m (m.length + 1) 0

theorem copy_not_invalid (junk : Junk) (s : String) (m : List Char) (n : Nat) :
    s.copy junk (some m) n ≠ .error .invalid_argument := by
  unfold String.copy
  simp only [validate_pointer]
  cases hr : (if n > s._capacity then s.resize junk n else Except.ok s) with
  | error e =>
    have : e ≠ .invalid_argument := by
      intro he
      subst he
      by_cases hgt : n > s._capacity
      · rw [if_pos hgt] at hr
        exact resize_not_invalid junk s n hr
      · rw [if_neg hgt] at hr
        cases hr
    simpa using this
  | ok s1 =>
    simp only
    cases hl : copy_loop m n 0 s1._data with
    | error e =>
      have := copy_loop_not_invalid m n 0 s1._data
      rw [hl] at this
      simpa using this
    | ok r => simp

theorem ctor_cstr_not_invalid (junk : Junk) (m : List Char) :
    String.ctor_cstr junk (some m) ≠ .error .invalid_argument := by
  unfold String.ctor_cstr
  cases hl : len (some m) with
  | error e =>
    have := len_not_invalid m
    rw [hl] at this
    simpa using this
  | ok l =>
    simp only
    cases hc : (String.ctor_size junk ((l + 1) % SIZE_MOD)).copy junk (some m)
        (String.ctor_size junk ((l + 1) % SIZE_MOD))._capacity with
    | error e =>
      have := copy_not_invalid junk (String.ctor_size junk ((l + 1) % SIZE_MOD)) m
        (String.ctor_size junk ((l + 1) % SIZE_MOD))._capacity
      rw [hc] at this
      simpa using this
    | ok r =>
      obtain ⟨k, s1⟩ := r
      simp only
      cases hs : store s1._data s1._length NUL with
      | error e =>
        have := store_not_invalid s1._data s1._length NUL
        rw [hs] at this
        simpa using this
      | ok d => simp

/-- C14.  `len(p)`, the construction `String(p)` and the instance `copy(p, n)`
raise the null-pointer error (`std::invalid_argument`) if and only if `p` is
null, and the static `copy(source, dest, n, pos)` raises it if and only if
`dest` is null or the storage of `source` is null.  The instance `copy` raises
it in `validate_pointer(str)`, its first statement: the call then yields the
error and no new buffer, the members are as before the call. -/
theorem null_pointer_error :
    (∀ p : Option (List Char), len p = .error .invalid_argument ↔ p = none)
    ∧ (∀ (junk : Junk) (p : Option (List Char)),
        String.ctor_cstr junk p = .error .invalid_argument ↔ p = none)
    ∧ (∀ (junk : Junk) (s : String) (p : Option (List Char)) (n : Nat),
        s.copy junk p n = .error .invalid_argument ↔ p = none)
    ∧ (∀ (in_str : String) (out_str : Option (List Char)) (n pos : Nat),
        copy_static in_str out_str n pos = .error .invalid_argument
          ↔ (out_str = none ∨ in_str._data = none)) := by
  refine ⟨?_, ?_, ?_, ?_⟩
  · intro p
    cases p with
    | none => simp [len, validate_pointer]
    | some m => simpa using len_not_invalid m
  · intro junk p
    cases p with
    | none => simp [String.ctor_cstr, len, validate_pointer]
    | some m => simpa using ctor_cstr_not_invalid junk m
  · intro junk s p n
    cases p with
    | none => simp [String.copy, validate_pointer]
    | some m => simpa using copy_not_invalid junk s m n
  · intro in_str out_str n pos
    cases out_str with
    | none => simp [copy_static, validate_pointer]
    | some out =>
      cases hd : in_str._data with
      | none => simp [copy_static, validate_pointer, hd]
      | some d =>
        simpa [copy_static, validate_pointer, hd] using
          copy_static_loop_not_invalid d n 0 pos out

/-! ## Claim C15: appending a range -/

/-- C15.  For a buffer satisfying the data-model invariants with terminator-free
content and a finite sequence `cs` of non-terminator characters (the capacity
and the doubled final length `2 * (length + |cs|) + 1` being values of
`size_type`), `append(first, last)` over `cs` returns a buffer satisfying the
invariants (capacity >= length + 1, terminator at `data[length]`) whose length
is the old length plus `|cs|` and whose content is the old content followed by
`cs`; the range constructor `String(first, last)` yields a buffer whose content
is `cs` and whose length is `|cs|`. -/
theorem append_range_extends (junk : Nat → Junk) (s : String) (cs : List Char)
    (hinv : s.Inv) (hfree : NUL ∉ s.content) (hcs : NUL ∉ cs)
    (hsz : s._capacity < SIZE_MOD) (hfit : 2 * (s._length + cs.length) + 1 < SIZE_MOD) :
    (∃ s1, s.append_range junk cs = .ok s1
      ∧ s1._length = s._length + cs.length
      ∧ s1.content = s.content ++ cs
      ∧ s1._capacity ≥ s1._length + 1
      ∧ s1.Inv
      ∧ (0 < cs.length → ∃ d1, s1._data = some d1 ∧ d1[s1._length]? = some NUL))
    ∧ (∃ s2, String.ctor_range junk cs = .ok s2
      ∧ s2._length = cs.length ∧ s2.content = cs ∧ s2.Inv) := by
  constructor
  · obtain ⟨s1, h1, h2, h3, h4⟩ := append_range_spec cs junk s hinv hfree hcs hsz hfit
    refine ⟨s1, h1, h4, h3, inv_length_lt h2, h2, ?_⟩
    intro hpos
    cases hd : s1._data with
    | none =>
      have := inv_unalloc_length h2 hd
      omega
    | some d1 => exact ⟨d1, rfl, (inv_alloc h2 hd).2.2⟩
  · obtain ⟨s2, h1, h2, h3, h4⟩ := append_range_spec cs junk String.ctor_default
      (by decide) (by decide) hcs (by decide)
      (by
        have : String.ctor_default._length = 0 := rfl
        rw [this]; omega)
    refine ⟨s2, h1, ?_, ?_, h2⟩
    · rw [h4]; simp [String.ctor_default]
    · rw [h3]; simp [String.ctor_default, String.content]

/-- Witness of C15: appending `"cd"` to the buffer holding `"ab"`. -/
theorem append_range_extends_witness :
    (⟨some ['a', 'b', NUL], 2, 3⟩ : String).Inv
    ∧ NUL ∉ (⟨some ['a', 'b', NUL], 2, 3⟩ : String).content
    ∧ NUL ∉ ['c', 'd']
    ∧ (⟨some ['a', 'b', NUL], 2, 3⟩ : String)._capacity < SIZE_MOD
    ∧ 2 * ((⟨some ['a', 'b', NUL], 2, 3⟩ : String)._length + ['c', 'd'].length) + 1 < SIZE_MOD
    ∧ (⟨some ['a', 'b', NUL], 2, 3⟩ : String).append_range (fun _ => junk0) ['c', 'd']
        = .ok ⟨some ['a', 'b', 'c', 'd', NUL, '?', '?'], 4, 7⟩
    ∧ ∃ s2, String.ctor_range (fun _ => junk0) ['c', 'd'] = .ok s2
      ∧ s2._length = ['c', 'd'].length ∧ s2.content = ['c', 'd'] ∧ s2.Inv :=
  ⟨by decide, by decide, by decide, by decide, by decide, by decide,
    (append_range_extends (fun _ => junk0) ⟨some ['a', 'b', NUL], 2, 3⟩ ['c', 'd']
      (by decide) (by decide) (by decide) (by decide) (by decide)).2⟩

/-! ## Claims C16 and C17: capacity and invariants under `push_back` -/

/-- C16.  For a buffer satisfying the data-model invariants (with
`2 * capacity + 1` a value of `size_type`) and every character `c`,
`push_back(c)` returns, and it changes the capacity if and only if
`length >= capacity - 1` held before the call; in that case it calls
`resize(capacity * 2)` and the capacity after the call is `2 * capacity + 1`;
otherwise the capacity is unchanged. -/
theorem push_back_capacity (junk : Junk) (s : String) (c : Char) (hinv : s.Inv)
    (hfit : 2 * s._capacity + 1 < SIZE_MOD) :
    ∃ s1, s.push_back junk c = .ok s1
      ∧ (s1._capacity ≠ s._capacity ↔ s._length ≥ s._capacity - 1)
      ∧ (s._length ≥ size_sub s._capacity 1 ↔ s._length ≥ s._capacity - 1)
      ∧ (s._length ≥ s._capacity - 1 →
          s1._capacity = 2 * s._capacity + 1
          ∧ (s._capacity * 2) % SIZE_MOD = s._capacity * 2
          ∧ ∃ s0, s.resize junk (s._capacity * 2) = .ok s0 ∧ s0._capacity = s1._capacity)
      ∧ (¬ s._length ≥ s._capacity - 1 → s1._capacity = s._capacity) := by
  obtain ⟨w, r, hres, _, _⟩ := push_back_spec junk s c hinv (by omega) (fun _ => hfit)
  have hle := inv_length_lt hinv
  have hpos := inv_capacity_pos hinv
  have hsub : size_sub s._capacity 1 = s._capacity - 1 := size_sub_one (by omega) (by omega)
  refine ⟨_, hres, ?_, by rw [hsub], ?_, ?_⟩
  · by_cases hf : s._length + 1 = s._capacity
    · simp only [hf, if_true]
      constructor
      · intro _; omega
      · intro _; omega
    · simp only [hf, if_false, ne_eq, not_true_eq_false, false_iff]
      omega
  · intro hge
    have hf : s._length + 1 = s._capacity := by omega
    simp only [hf, if_true, true_and]
    refine ⟨Nat.mod_eq_of_lt (by omega), ?_⟩
    cases hd : s._data with
    | none =>
      refine ⟨_, resize_unalloc junk s (s._capacity * 2) hd, ?_⟩
      show (s._capacity * 2 + 1) % SIZE_MOD = 2 * s._capacity + 1
      rw [Nat.mod_eq_of_lt (by omega)]; omega
    | some d =>
      obtain ⟨_, _, hterm⟩ := inv_alloc hinv hd
      obtain ⟨r0, hr0, _⟩ := resize_alloc junk s d (s._capacity * 2) hd
        (mem_of_getElem? hterm) (by omega)
      refine ⟨_, hr0, ?_⟩
      show s._capacity * 2 + 1 = 2 * s._capacity + 1
      omega
  · intro hlt
    have hf : ¬ (s._length + 1 = s._capacity) := by omega
    simp only [hf, if_false]

/-- Witness of C16: `push_back` on the full buffer holding `"ab"` in capacity 3. -/
theorem push_back_capacity_witness :
    (⟨some ['a', 'b', NUL], 2, 3⟩ : String).Inv
    ∧ 2 * (⟨some ['a', 'b', NUL], 2, 3⟩ : String)._capacity + 1 < SIZE_MOD
    ∧ ∃ s1, (⟨some ['a', 'b', NUL], 2, 3⟩ : String).push_back junk0 'c' = .ok s1
      ∧ (s1._capacity ≠ 3 ↔ 2 ≥ 3 - 1) :=
  ⟨by decide, by decide,
    (push_back_capacity junk0 ⟨some ['a', 'b', NUL], 2, 3⟩ 'c' (by decide) (by decide)).imp
      fun _ h => ⟨h.1, h.2.1⟩⟩

/-- C17.  For a buffer that is unallocated with length 0 and capacity 1, or
allocated with `length + 1 <= capacity` and `data[length] == '\0'` (in a storage
of `capacity` cells, with `2 * capacity + 1` not overflowing), and every
character `c`, the terminator included, `push_back(c)` returns a buffer that is
allocated, whose storage has `capacity` cells, with `length + 1 <= capacity` and
`data[length] == '\0'`; the two writes, at the index `length - 1` and at the
index `length` of the result, are strictly below the capacity of the storage in
use (in the embedding a write outside the storage makes the call end in
`Fault.undefined`). -/
theorem push_back_keeps_invariants (junk : Junk) (s : String) (c : Char) (hinv : s.Inv)
    (hfit : 2 * s._capacity + 1 < SIZE_MOD) :
    ∃ (s1 : String) (d1 : List Char),
      s.push_back junk c = .ok s1
      ∧ s1._data = some d1
      ∧ d1.length = s1._capacity
      ∧ s1._length + 1 ≤ s1._capacity
      ∧ d1[s1._length]? = some NUL
      ∧ s1.Inv
      ∧ 1 ≤ s1._length
      ∧ s1._length - 1 < s1._capacity ∧ s1._length < s1._capacity
      ∧ d1[s1._length - 1]? = some c := by
  obtain ⟨w, r, hres, hlen, _⟩ := push_back_spec junk s c hinv (by omega) (fun _ => hfit)
  obtain ⟨s1, h1, h2, h3⟩ := push_back_inv junk s c hinv hfit
  rw [hres] at h1
  have hs1 := Except.ok.inj h1
  subst hs1
  obtain ⟨g1, g2, g3⟩ := inv_alloc h2 rfl
  refine ⟨_, _, hres, rfl, g1, g2, g3, h2, by simp, ?_, ?_, ?_⟩
  · show w.length + 1 - 1
      < (if s._length + 1 = s._capacity then 2 * s._capacity + 1 else s._capacity)
    omega
  · show w.length + 1
      < (if s._length + 1 = s._capacity then 2 * s._capacity + 1 else s._capacity)
    omega
  · show (w ++ c :: NUL :: r)[w.length + 1 - 1]? = some c
    rw [Nat.add_sub_cancel]
    exact getElem?_append_cons_length w _ c

/-- Witness of C17: `push_back('\0')` on the default-constructed buffer. -/
theorem push_back_keeps_invariants_witness :
    String.ctor_default.Inv
    ∧ 2 * String.ctor_default._capacity + 1 < SIZE_MOD
    ∧ ∃ (s1 : String) (d1 : List Char),
      String.ctor_default.push_back junk0 NUL = .ok s1
      ∧ s1._data = some d1
      ∧ d1.length = s1._capacity
      ∧ s1._length + 1 ≤ s1._capacity
      ∧ d1[s1._length]? = some NUL :=
  ⟨by decide, by decide, by
    obtain ⟨s1, d1, h⟩ := push_back_keeps_invariants junk0 String.ctor_default NUL
      (by decide) (by decide)
    exact ⟨s1, d1, h.1, h.2.1, h.2.2.1, h.2.2.2.1, h.2.2.2.2.1⟩⟩

/-! ## Claim C18: what `compare_equal(const_pointer)` computes -/

/-- C18.  For an allocated buffer whose content `w`, the cells `[0, length)`, is
free of terminators, with `data[length] == '\0'`, and a terminated sequence `t`,
`compare_equal(t)` returns, and it returns true if and only if `w` is a prefix
of the characters of `t` before its terminator, that is `len(t) >= length` and
`t` agrees with `w` on the first `length` positions. -/
theorem compare_equal_iff_content_leads (s : String) (d t : List Char) (hd : s._data = some d)
    (hfree : NUL ∉ d.take s._length) (hterm : d[s._length]? = some NUL) (ht : NUL ∈ t) :
    ∃ b, s.compare_equal (some t) = .ok b
      ∧ (b = true ↔ d.take s._length <+: before_nul t)
      ∧ (b = true ↔ (s._length ≤ (before_nul t).length ∧ t.take s._length = d.take s._length))
      ∧ len (some t) = .ok (before_nul t).length := by
  obtain ⟨b, h1, h2⟩ := compare_equal_spec s d t hd hfree hterm ht
  have hL : (d.take s._length).length = s._length := by
    rw [List.length_take]
    have := (List.getElem?_eq_some.mp hterm).1
    omega
  refine ⟨b, h1, h2, ?_, len_spec t ht⟩
  rw [h2]
  exact prefix_iff_take (d.take s._length) t s._length hL (before_nul t) (before_nul_pfx t)

/-- Witness of C18: the buffer holding `"abc"` against `"abcd"`. -/
theorem compare_equal_iff_content_leads_witness :
    (⟨some ['a', 'b', 'c', NUL], 3, 4⟩ : String)._data = some ['a', 'b', 'c', NUL]
    ∧ NUL ∉ ['a', 'b', 'c', NUL].take 3
    ∧ ['a', 'b', 'c', NUL][3]? = some NUL
    ∧ NUL ∈ ['a', 'b', 'c', 'd', NUL]
    ∧ ∃ b, (⟨some ['a', 'b', 'c', NUL], 3, 4⟩ : String).compare_equal
          (some ['a', 'b', 'c', 'd', NUL]) = .ok b
      ∧ (b = true ↔ ['a', 'b', 'c', NUL].take 3 <+: before_nul ['a', 'b', 'c', 'd', NUL]) :=
  ⟨rfl, by decide, by decide, by decide,
    (compare_equal_iff_content_leads ⟨some ['a', 'b', 'c', NUL], 3, 4⟩ ['a', 'b', 'c', NUL]
      ['a', 'b', 'c', 'd', NUL] rfl (by decide) (by decide) (by decide)).imp
      fun _ h => ⟨h.1, h.2.1⟩⟩

/-! ## Claim C19: the writes of the instance `copy` -/

/-- C19 fails on the code: on the default-constructed buffer (null storage,
length 0, capacity 1), `copy("a", 1)` does not call `resize`, since `1 > 1` is
false, and writes `_data[0]` through the null pointer. -/
theorem copy_writes_through_null :
    String.ctor_default = ⟨none, 0, 1⟩
    ∧ String.ctor_default.Inv
    ∧ NUL ∈ ['a', NUL]
    ∧ copy_loop ['a', NUL] 1 0 none = .error .undefined
    ∧ String.ctor_default.copy junk0 (some ['a', NUL]) 1 = .error .undefined := by
  decide

end PyString
